import Mathlib

/-!
Verification of the document-composition pipeline in `stratagem.py`
(visual W-9 recreation tool).

Python strings are modelled as lists of characters (`PyStr`); Python
`dict` lookups as functions `String → Option String`; floating-point
sizes as exact rationals (the source's `0.2` step is `1/5`).  Font
metrics (reportlab's `stringWidth`) are modelled by a per-character
width table `cw : Char → ℕ` in AFM units, with
`stringWidth = size * sum(widths) / 1000`, exactly reportlab's formula.
`while` loops that decrease a rational by a fixed step are modelled by
fuel-indexed recursion together with a proof that the supplied fuel is
sufficient.
-/

namespace Stratagem

/-- Python strings as lists of characters. -/
abbrev PyStr := List Char

/-- ASCII whitespace recognised by Python's `str.strip()`. -/
def pyIsSpace (c : Char) : Bool :=
  c = ' ' || c = '\t' || c = '\n' || c = '\r' || c = '\x0b' || c = '\x0c'

/-- Python `str.strip()`: drop whitespace from both ends. -/
def stripL (s : PyStr) : PyStr :=
  ((s.dropWhile pyIsSpace).reverse.dropWhile pyIsSpace).reverse

/-- `norm` from the source: `(s or "").strip()` on an optional string. -/
def norm (s : Option PyStr) : PyStr :=
  stripL (s.getD [])

/-- Total AFM width units of a string under the metrics table `cw`. -/
def widthUnits (cw : Char → ℕ) (s : PyStr) : ℕ :=
  (s.map cw).sum

/-- reportlab's `stringWidth(text, font, size)`: the font is folded into
the metrics table `cw`. -/
def stringWidth (cw : Char → ℕ) (s : PyStr) (size : ℚ) : ℚ :=
  size * (widthUnits cw s : ℚ) / 1000

/-- A widget rectangle `[x0, y0, x1, y1]`. -/
structure Rect where
  x0 : ℚ
  y0 : ℚ
  x1 : ℚ
  y1 : ℚ
deriving DecidableEq

/-- Fuel that is always sufficient for a loop that starts at `maxS` and
decreases by `1/5` while staying `≥ minS`. -/
def fitFuel (maxS minS : ℚ) : ℕ :=
  (⌈5 * (maxS - minS)⌉).toNat + 1

/-- The size-shrinking loop of `draw_text_fit_vec`:
`while size >= min_size and stringWidth(text, font, size) > w: size -= 0.2`. -/
def fit_single_aux (cw : Char → ℕ) (t : PyStr) (w minS : ℚ) : ℕ → ℚ → ℚ
  | 0, size => size
  | fuel + 1, size =>
    if minS ≤ size ∧ w < stringWidth cw t size then
      fit_single_aux cw t w minS fuel (size - 1/5)
    else size

/-- A vector text draw operation (`c.setFont(font, size); c.drawString(x, y, text)`). -/
structure TextOp where
  font : String
  size : ℚ
  x : ℚ
  y : ℚ
  text : PyStr
deriving DecidableEq

/-- `draw_text_fit_vec`: normalise the text, return early on empty text or
missing rectangle, shrink the size from `max_size` by `0.2` steps while it
overflows `rect` width minus two insets, clamp at `min_size`, and draw. -/
def draw_text_fit_vec (cw : Char → ℕ) (text : Option PyStr) (rect : Option Rect)
    (font : String) (maxS minS inset : ℚ) (vcenter : Bool) : Option TextOp :=
  let t := norm text
  match rect with
  | none => none
  | some r =>
    if t = [] then none
    else
      let w := r.x1 - r.x0 - 2 * inset
      let size := max (fit_single_aux cw t w minS (fitFuel maxS minS) maxS) minS
      let y := if vcenter then r.y0 + (r.y1 - r.y0 - size) / 2 + 1/2 else r.y0 + inset
      some ⟨font, size, r.x0 + inset, y, t⟩

/-! ### Digit splitting and the digit-cell renderer (`split_ssn`, `split_ein`,
`draw_digits_in_cells_vec`) -/

/-- `split_ssn`: keep the digits of `ssn or ""`; a 9-digit result is split
`3-2-4`, anything else yields three empty strings. -/
def split_ssn (ssn : Option PyStr) : PyStr × PyStr × PyStr :=
  let digits := (ssn.getD []).filter Char.isDigit
  if digits.length = 9 then (digits.take 3, (digits.drop 3).take 2, digits.drop 5)
  else ([], [], [])

/-- `split_ein`: keep the digits of `ein or ""`; a 9-digit result is split
`2-7`, anything else yields two empty strings. -/
def split_ein (ein : Option PyStr) : PyStr × PyStr :=
  let digits := (ein.getD []).filter Char.isDigit
  if digits.length = 9 then (digits.take 2, digits.drop 2)
  else ([], [])

/-- The size loop of `draw_digits_in_cells_vec`:
`while size > 6.5 and stringWidth("8", font, size) > (cell_w - 1.0): size -= 0.2`. -/
def digit_size_aux (cw : Char → ℕ) (cellw : ℚ) : ℕ → ℚ → ℚ
  | 0, size => size
  | fuel + 1, size =>
    if 13/2 < size ∧ cellw - 1 < stringWidth cw ['8'] size then
      digit_size_aux cw cellw fuel (size - 1/5)
    else size

/-- One centred glyph drawn by `c.drawCentredString(cx, y, ch)`. -/
structure GlyphOp where
  x : ℚ
  y : ℚ
  glyph : Char
deriving DecidableEq

/-- `draw_digits_in_cells_vec`: filter the digits, return without drawing when
there are none (or no rectangle); otherwise centre each of the first `slots`
digits in its equal-width cell at the fitted size. -/
def draw_digits_in_cells_vec (cw : Char → ℕ) (text : Option PyStr) (rect : Option Rect)
    (slots : ℕ) (maxS inset : ℚ) : List GlyphOp :=
  let digits := (text.getD []).filter Char.isDigit
  match rect with
  | none => []
  | some r =>
    if digits = [] then []
    else
      let cellw := (r.x1 - r.x0 - 2 * inset) / (slots : ℚ)
      let size := digit_size_aux cw cellw (fitFuel maxS (13/2)) maxS
      let y := r.y0 + (r.y1 - r.y0 - size) / 2 + 1/2
      (digits.take slots).enum.map
        (fun p => ⟨r.x0 + inset + cellw * ((p.1 : ℚ) + 1/2), y, p.2⟩)

/-- One digit-grid draw on the overlay: the semantic target rectangle, the
digit group drawn into it, and its slot count. -/
structure DigitOp where
  role : String
  digits : PyStr
  slots : ℕ
deriving DecidableEq

/-- The TIN section of `compose_overlay_page1`:
`ssn = norm(data.get("ssn")); ein = norm(data.get("ein"))`;
`if ssn and not ein` draw the three SSN groups, `elif ein` draw the two EIN
groups, else draw nothing. -/
def tin_ops (ssn_field ein_field : Option PyStr) : List DigitOp :=
  let ssn := norm ssn_field
  let ein := norm ein_field
  if ssn ≠ [] ∧ ein = [] then
    let g := split_ssn (some ssn)
    [⟨"ssn_1", g.1, 3⟩, ⟨"ssn_2", g.2.1, 2⟩, ⟨"ssn_3", g.2.2, 4⟩]
  else if ein ≠ [] then
    let g := split_ein (some ein)
    [⟨"ein_1", g.1, 2⟩, ⟨"ein_2", g.2, 7⟩]
  else []

/-! ### Classification checkboxes (`compose_overlay_page1` lines 477-490,
`draw_check_vec`) -/

/-- Python `str.lower()` restricted to ASCII case folding. -/
def pyLower (s : PyStr) : PyStr := s.map Char.toLower

/-- The seven classification checkboxes of the form (the `c1_1[..]` family). -/
inductive ChkRole where
  | individual
  | c_corp
  | s_corp
  | partnership
  | trust_estate
  | llc
  | other
deriving DecidableEq

/-- `(data.get("classification","") or "").lower().strip()`. -/
def classification_norm (cls : Option PyStr) : PyStr :=
  stripL (pyLower (cls.getD []))

/-- The `if/elif` alias chain selecting at most one classification checkbox. -/
def classification_role (cls : Option PyStr) : Option ChkRole :=
  let c := classification_norm cls
  if c = "individual".data ∨ c = "sole proprietor".data ∨ c = "sole_proprietor".data then
    some .individual
  else if c = "c_corp".data ∨ c = "c corp".data ∨ c = "c corporation".data ∨ c = "c".data then
    some .c_corp
  else if c = "s_corp".data ∨ c = "s corp".data ∨ c = "s corporation".data ∨ c = "s".data then
    some .s_corp
  else if c = "partnership".data ∨ c = "p".data then
    some .partnership
  else if c = "trust_estate".data ∨ c = "trust".data ∨ c = "estate".data then
    some .trust_estate
  else if "llc".data.isPrefixOf c then
    some .llc
  else if c = "other".data then
    some .other
  else none

/-- A centred checkbox glyph (`c.drawCentredString(cx, cy - size/3.3, glyph)`). -/
structure CheckOp where
  font : String
  size : ℚ
  x : ℚ
  y : ℚ
  glyph : Char
deriving DecidableEq

/-- `rect_center`. -/
def rect_center (r : Rect) : ℚ × ℚ :=
  ((r.x0 + r.x1) / 2, (r.y0 + r.y1) / 2)

/-- `draw_check_vec`: no-op without a rectangle, otherwise a bold glyph centred
horizontally at the rectangle centre with baseline `cy - size/3.3`. -/
def draw_check_vec (rect : Option Rect) (glyph : Char) (size : ℚ) (font : String) :
    Option CheckOp :=
  match rect with
  | none => none
  | some r => some ⟨font, size, (rect_center r).1, (rect_center r).2 - size / (33/10), glyph⟩

/-- The classification-checkbox draws of `compose_overlay_page1`.  The source's
`ck` helper calls `draw_check_vec` directly, bypassing the
`fontwarp_aggr` rasterisation branch used for text fields, so the
`fontwarp_aggr` flag is received but never consulted. -/
def classification_check_ops (fontwarp_aggr : Bool) (cls : Option PyStr)
    (rects : ChkRole → Option Rect) : List CheckOp :=
  match classification_role cls with
  | none => []
  | some role =>
    match draw_check_vec (rects role) '✓' (19/2) "Helvetica-Bold" with
    | none => []
    | some op => [op]

/-! ### Metadata synthesis (`finalize_info`) -/

/-- A Python `dict[str, str]` modelled by its lookup function. -/
def PDict := String → Option String

/-- `dict(d); out.update(u)`: the updating dict wins on key collisions. -/
def dictUpdate (d u : PDict) : PDict :=
  fun k => match u k with
  | some v => some v
  | none => d k

/-- `out.setdefault(key, dflt)`. -/
def dictSetdefault (d : PDict) (key dflt : String) : PDict :=
  fun k =>
    if k = key then
      match d key with
      | some v => some v
      | none => some dflt
    else d k

/-- `out[key] = v`. -/
def dictSet (d : PDict) (key v : String) : PDict :=
  fun k => if k = key then some v else d k

/-- `finalize_info(template_info, user_info)` with the call-time clock value
`pdf_date_now()` passed in as `now` (the function is pure given the clock). -/
def finalize_info (now : String) (template_info user_info : PDict) : PDict :=
  let out1 := dictUpdate template_info user_info
  let out2 := dictSetdefault out1 "/Creator" "Designer 6.5"
  let out3 := dictSetdefault out2 "/Producer" "Designer 6.5"
  let out4 := dictSet out3 "/CreationDate" now
  fun k => if k = "/ModDate" then out4 "/CreationDate" else out4 k

/-! ### Watermark tiling (`compose_watermark_page` lines 541-558)

The nested `while y < h: while x < w: draw; x += xs; y += ys` loops are
modelled with fuel; `none` means the fuel ran out before the loop guard
failed, so `∀ fuel, … = none` expresses non-termination of the Python loop. -/

/-- `⌈(bound - start) / step⌉` clamped to ℕ: the exact iteration count of
`while x < bound: x += step` for a positive step. -/
def tileCount (bound start step : ℚ) : ℕ :=
  (⌈(bound - start) / step⌉).toNat

/-- Inner tiling loop: x-coordinates drawn by `while x < w: …; x += xs`. -/
def tile_row_aux (w xs : ℚ) : ℕ → ℚ → Option (List ℚ)
  | 0, x => if x < w then none else some []
  | fuel + 1, x =>
    if x < w then (tile_row_aux w xs fuel (x + xs)).map (fun l => x :: l)
    else some []

/-- Outer tiling loop: all `(x, y)` tile translation points. -/
def tile_grid_aux (w h x0 xs ys : ℚ) (rowFuel : ℕ) : ℕ → ℚ → Option (List (ℚ × ℚ))
  | 0, y => if y < h then none else some []
  | fuel + 1, y =>
    if y < h then
      match tile_row_aux w xs rowFuel x0 with
      | none => none
      | some row =>
        (tile_grid_aux w h x0 xs ys rowFuel fuel (y + ys)).map
          (fun rest => row.map (fun x => (x, y)) ++ rest)
    else some []

/-- The tile translation points of `compose_watermark_page` for a tile spec
with offsets `(x0, y0)` and steps `(xs, ys)`, run with the canonical fuel. -/
def tile_positions (w h x0 y0 xs ys : ℚ) : Option (List (ℚ × ℚ)) :=
  tile_grid_aux w h x0 xs ys (tileCount w x0 xs) (tileCount h y0 ys) y0

/-! ### Layer composition (`build_writer_with_layers`, `build_writer_wm_only`)

A PDF page is modelled by its stack of content layers (bottom to top) and its
`/Annots` entry (`none` = absent).  PyPDF2's `PageObject.merge_page(page2)`
appends `page2`'s content on top of `self`'s and collects the annotations of
both pages into a fresh `/Annots` array on `self`; `strip_annots` deletes the
`/Annots` key.  Watermark and overlay layers are produced by fresh reportlab
canvases, which never emit annotations — theorems carry that as hypotheses. -/

/-- A PDF page: content layers bottom-to-top, and an optional `/Annots` array. -/
structure PdfPage where
  contents : List String
  annots : Option (List String)
deriving DecidableEq

/-- PyPDF2 `merge_page`: `over`'s content stacks on top; annotations of both
pages are gathered into the receiver's new `/Annots` array. -/
def merge_page (base over : PdfPage) : PdfPage :=
  { contents := base.contents ++ over.contents
    annots := some (base.annots.getD [] ++ over.annots.getD []) }

/-- `strip_annots`: `del page["/Annots"]` when present. -/
def strip_annots (p : PdfPage) : PdfPage :=
  { p with annots := none }

/-- The annotation array a page carries (absent = empty). -/
def annotList (p : PdfPage) : List String :=
  p.annots.getD []

/-- The `for i in range(…): if wm_cfg and (wm_pages_all or (i+1) in wm_pages_set)`
loop shared by both writers: page index `i` (0-based) gets the watermark layer
`wm i` merged under it when the 1-based page number is selected.  The
`wm_cfg`-present test and the resolved page selection are folded into `wmSel`. -/
def wm_pages_from (wmSel : ℕ → Bool) (wm : ℕ → PdfPage) : List PdfPage → ℕ → List PdfPage
  | [], _ => []
  | t :: ts, i =>
    (if wmSel (i + 1) then merge_page (wm i) t else t) :: wm_pages_from wmSel wm ts (i + 1)

/-- `build_writer_with_layers` (full mode): page 1 is
(optional watermark under) + template + overlay on top with its annotations
stripped before the overlay merge; pages 2..N get the watermark merged under
the template content when selected, else are copied unmodified. -/
def build_writer_with_layers (tpl : List PdfPage) (ov : PdfPage)
    (wmSel : ℕ → Bool) (wm : ℕ → PdfPage) : List PdfPage :=
  match tpl with
  | [] => []
  | t0 :: rest =>
    let base0 := if wmSel 1 then merge_page (wm 0) t0 else t0
    let page1 := merge_page (strip_annots base0) ov
    page1 :: wm_pages_from wmSel wm rest 1

/-- `build_writer_wm_only` (bypass mode): every selected page gets the
watermark merged under the template content; no overlay, no `strip_annots`. -/
def build_writer_wm_only (tpl : List PdfPage) (wmSel : ℕ → Bool) (wm : ℕ → PdfPage) :
    List PdfPage :=
  wm_pages_from wmSel wm tpl 0

/-! ### Cleanup policy (`main` lines 861-885) -/

/-- Python's `sub in s` substring test, over character lists. -/
def has_sub (sub : List Char) : List Char → Bool
  | [] => sub.isEmpty
  | c :: rest => sub.isPrefixOf (c :: rest) || has_sub sub rest

/-- Python's `s.endswith(suf)`, over character lists. -/
def ends_with (s suf : List Char) : Bool :=
  suf.reverse.isPrefixOf s.reverse

/-- The always-on fallback of full-mode cleanup:
`for name in os.listdir("."): if name.endswith(".png") and ".overlay" in name:
os.remove(name)`. -/
def cwd_png_cleanup (cwd : List String) : List String :=
  cwd.filter (fun n => ends_with n.data ".png".data && has_sub ".overlay".data n.data)

/-- The set of paths `main` removes after a successful write.  In full mode
`temp_files = [overlay_path] + wm_temps` and the slice kept without `--clean`
is `temp_files[:1]` (the overlay); in bypass mode `temp_files` holds only the
watermark layers and is removed only with `--clean`.  The rasterised PNG list
returned by `compose_overlay_page1` is bound to `tmp_pngs` in `main` and never
used, so it does not appear here. -/
def main_cleanup (w9bp clean : Bool) (overlay_path : String) (wm_temps : List String)
    (cwd : List String) : List String :=
  if w9bp then
    if clean then wm_temps else []
  else
    let temp_files := overlay_path :: wm_temps
    (if clean then temp_files else temp_files.take 1) ++ cwd_png_cleanup cwd

/-! ### Greedy word wrap and the multi-line fitter (`draw_multiline_fit_vec`) -/

/-- Python `str.splitlines()` over the ASCII line separators
`\n`, `\r\n`, `\r`, `\x0b`, `\x0c` (no trailing empty line). -/
def splitlines_aux : List Char → List Char → List PyStr
  | [], acc => if acc = [] then [] else [acc.reverse]
  | '\r' :: '\n' :: rest, acc => acc.reverse :: splitlines_aux rest []
  | c :: rest, acc =>
    if c = '\n' ∨ c = '\r' ∨ c = '\x0b' ∨ c = '\x0c' then
      acc.reverse :: splitlines_aux rest []
    else splitlines_aux rest (c :: acc)

/-- Python `str.splitlines()`. -/
def pySplitlines (s : PyStr) : List PyStr :=
  splitlines_aux s []

/-- Python `raw.split(" ")`: split on every single space, keeping empties. -/
def split_space : PyStr → List PyStr
  | [] => [[]]
  | c :: rest =>
    if c = ' ' then [] :: split_space rest
    else
      match split_space rest with
      | [] => [[c]]
      | l :: ls => (c :: l) :: ls

/-- The inner word loop of `draw_multiline_fit_vec`'s wrap:
`trial = (cur + " " + w).strip(); if fits: cur = trial
else: (if cur: lines.append(cur)); cur = w`, flushing `cur` at the end. -/
def wrap_words_aux (cw : Char → ℕ) (size maxW : ℚ) : List PyStr → PyStr → List PyStr
  | [], cur => if cur = [] then [] else [cur]
  | w :: ws, cur =>
    let trial := stripL (cur ++ ' ' :: w)
    if stringWidth cw trial size ≤ maxW then
      wrap_words_aux cw size maxW ws trial
    else
      (if cur = [] then [] else [cur]) ++ wrap_words_aux cw size maxW ws w

/-- Greedy wrap of one raw line at `size` against `maxW`. -/
def wrap_raw (cw : Char → ℕ) (size maxW : ℚ) (raw : PyStr) : List PyStr :=
  wrap_words_aux cw size maxW (split_space raw) []

/-- The full wrap of one candidate iteration: wrap each raw line of the
(already normalised) text, concatenating the produced lines. -/
def wrap_text (cw : Char → ℕ) (size maxW : ℚ) (t : PyStr) : List PyStr :=
  (pySplitlines t).flatMap (wrap_raw cw size maxW)

/-- The size loop of `draw_multiline_fit_vec`: wrap at the candidate size,
break when `len(lines) * size * leading` fits the available height, else step
the size down by `0.2`; on falling below `min_size` the previous iteration's
line list is kept with the stepped-down size. -/
def draw_multiline_fit_aux (cw : Char → ℕ) (t : PyStr) (maxW availH minS leading : ℚ) :
    ℕ → ℚ → List PyStr → ℚ × List PyStr
  | 0, size, prevLines => (size, prevLines)
  | fuel + 1, size, prevLines =>
    if size < minS then (size, prevLines)
    else
      let L := wrap_text cw size maxW t
      if (L.length : ℚ) * (size * leading) ≤ availH then (size, L)
      else draw_multiline_fit_aux cw t maxW availH minS leading fuel (size - 1/5) L

/-- `draw_multiline_fit_vec`, reduced to the data the claims speak about: the
chosen font size and the wrapped line list it draws. -/
def draw_multiline_fit_vec (cw : Char → ℕ) (text : PyStr) (r : Rect)
    (maxS minS inset leading : ℚ) : ℚ × List PyStr :=
  let t := stripL text
  let maxW := r.x1 - r.x0 - 2 * inset
  let availH := r.y1 - r.y0 - 2 * inset
  draw_multiline_fit_aux cw t maxW availH minS leading (fitFuel maxS minS) maxS []

/-- The line separators recognised by the splitlines model. -/
def isLineSep (c : Char) : Bool :=
  c = '\n' || c = '\r' || c = '\x0b' || c = '\x0c'

/-- A word as produced by splitting on spaces in whitespace-clean text:
no whitespace characters at all. -/
def NoWS (w : PyStr) : Prop :=
  ∀ c ∈ w, pyIsSpace c = false

/-- `glue w0 ws`: the words `w0 :: ws` joined by single spaces. -/
def glue (w0 : PyStr) (ws : List PyStr) : PyStr :=
  w0 ++ ws.flatMap (fun w => ' ' :: w)

/-- A line shaped like wrap output: nonempty whitespace-free words joined by
single spaces. -/
def CleanLine (L : PyStr) : Prop :=
  ∃ w0 ws, w0 ≠ [] ∧ NoWS w0 ∧ (∀ w ∈ ws, w ≠ [] ∧ NoWS w) ∧ L = glue w0 ws

/-- The invariant of lines produced by the greedy wrap: clean shape and
either a single (possibly overlong) word or measured width within `maxW`. -/
def GoodLine (cw : Char → ℕ) (size maxW : ℚ) (L : PyStr) : Prop :=
  CleanLine L ∧ (NoWS L ∨ stringWidth cw L size ≤ maxW)

/-! ## Theorems -/

theorem fit_single_aux_le (cw : Char → ℕ) (t : PyStr) (w minS : ℚ) :
    ∀ (fuel : ℕ) (size : ℚ), fit_single_aux cw t w minS fuel size ≤ size := by
  intro fuel
  induction fuel with
  | zero => intro size; simp [fit_single_aux]
  | succ fuel ih =>
    intro size
    rw [fit_single_aux]
    split
    · exact le_trans (ih (size - 1/5)) (by linarith)
    · exact le_refl _

theorem fit_single_aux_post (cw : Char → ℕ) (t : PyStr) (w minS : ℚ) :
    ∀ (fuel : ℕ) (size : ℚ), size - (fuel : ℚ) / 5 < minS →
      fit_single_aux cw t w minS fuel size < minS ∨
        stringWidth cw t (fit_single_aux cw t w minS fuel size) ≤ w := by
  intro fuel
  induction fuel with
  | zero =>
    intro size hs
    left
    simpa [fit_single_aux] using by linarith
  | succ fuel ih =>
    intro size hs
    rw [fit_single_aux]
    split
    · apply ih
      push_cast at hs ⊢
      linarith
    · rename_i hguard
      rcases not_and_or.mp hguard with h | h
      · exact Or.inl (lt_of_not_le h)
      · exact Or.inr (le_of_not_lt h)

theorem fitFuel_lt (maxS minS : ℚ) : maxS - (fitFuel maxS minS : ℚ) / 5 < minS := by
  have h1 : 5 * (maxS - minS) ≤ (⌈5 * (maxS - minS)⌉ : ℚ) := Int.le_ceil _
  have h2 : ((⌈5 * (maxS - minS)⌉ : ℤ) : ℚ) ≤ ((⌈5 * (maxS - minS)⌉.toNat : ℕ) : ℚ) := by
    exact_mod_cast Int.self_le_toNat _
  have h3 : (fitFuel maxS minS : ℚ) = ((⌈5 * (maxS - minS)⌉.toNat : ℕ) : ℚ) + 1 := by
    unfold fitFuel
    push_cast
    ring
  rw [h3]
  linarith

theorem stringWidth_mono_size (cw : Char → ℕ) (t : PyStr) {s s' : ℚ} (h : s ≤ s') :
    stringWidth cw t s ≤ stringWidth cw t s' := by
  unfold stringWidth
  have h0 : (0 : ℚ) ≤ (widthUnits cw t : ℚ) := Nat.cast_nonneg _
  have := mul_le_mul_of_nonneg_right h h0
  linarith

/-- C1: for every text and rectangle, the single-line fitter draws (never
errors) with a size in `[min_size, max_size]`; if the rectangle is wide enough
for the text at `min_size` plus two insets then the chosen size also fits, and
if no size at least `min_size` fits then the chosen size is exactly `min_size`
(overflow tolerated). -/
theorem draw_text_fit_vec_single_line_fit
    (cw : Char → ℕ) (text : Option PyStr) (r : Rect) (font : String)
    (maxS minS inset : ℚ) (vcenter : Bool)
    (hms : minS ≤ maxS) (ht : norm text ≠ []) :
    ∃ op : TextOp,
      draw_text_fit_vec cw text (some r) font maxS minS inset vcenter = some op ∧
      op.text = norm text ∧
      minS ≤ op.size ∧ op.size ≤ maxS ∧
      (stringWidth cw (norm text) minS + 2 * inset ≤ r.x1 - r.x0 →
        stringWidth cw (norm text) op.size + 2 * inset ≤ r.x1 - r.x0) ∧
      (r.x1 - r.x0 < stringWidth cw (norm text) minS + 2 * inset → op.size = minS) := by
  have hw : r.x1 - r.x0 - 2 * inset = r.x1 - r.x0 - 2 * inset := rfl
  set t := norm text with htdef
  set w := r.x1 - r.x0 - 2 * inset with hwdef
  set s0 := fit_single_aux cw t w minS (fitFuel maxS minS) maxS with hs0
  have hop : draw_text_fit_vec cw text (some r) font maxS minS inset vcenter =
      some ⟨font, max s0 minS, r.x0 + inset,
        if vcenter then r.y0 + (r.y1 - r.y0 - max s0 minS) / 2 + 1/2 else r.y0 + inset, t⟩ := by
    simp only [draw_text_fit_vec, ← htdef, ← hwdef, ← hs0]
    rw [if_neg ht]
  refine ⟨_, hop, rfl, le_max_right _ _, ?_, ?_, ?_⟩
  · exact max_le (le_trans (fit_single_aux_le cw t w minS _ maxS) (le_refl maxS)) hms
  · intro hfit
    have hfit' : stringWidth cw t minS ≤ w := by rw [hwdef]; linarith
    have hpost := fit_single_aux_post cw t w minS (fitFuel maxS minS) maxS (fitFuel_lt maxS minS)
    rcases le_or_lt minS s0 with hc | hc
    · rw [max_eq_left hc]
      rcases hpost with hlt | hle
      · exact absurd hlt (not_lt.mpr hc)
      · rw [hwdef] at hle; linarith
    · rw [max_eq_right hc.le]
      linarith
  · intro hover
    have hover' : w < stringWidth cw t minS := by rw [hwdef]; linarith
    have hpost := fit_single_aux_post cw t w minS (fitFuel maxS minS) maxS (fitFuel_lt maxS minS)
    have hlt : s0 < minS := by
      by_contra hge
      push_neg at hge
      rcases hpost with hlt | hle
      · exact absurd hlt (not_lt.mpr hge)
      · exact absurd hle (not_le.mpr (lt_of_lt_of_le hover' (stringWidth_mono_size cw t hge)))
    simp [max_eq_right hlt.le]

/-- Witness for C1 at a concrete run: five 600-unit glyphs fit a 100pt-wide
rectangle at the maximum size. -/
theorem draw_text_fit_vec_single_line_fit_witness :
    ∃ op : TextOp,
      draw_text_fit_vec (fun _ => 600) (some "hello".data) (some ⟨0, 0, 100, 20⟩)
          "Helvetica" (21/2) 7 2 true = some op ∧
      op.text = norm (some "hello".data) ∧
      7 ≤ op.size ∧ op.size ≤ 21/2 ∧
      (stringWidth (fun _ => 600) (norm (some "hello".data)) 7 + 2 * 2 ≤ (100 : ℚ) - 0 →
        stringWidth (fun _ => 600) (norm (some "hello".data)) op.size + 2 * 2 ≤ (100 : ℚ) - 0) ∧
      ((100 : ℚ) - 0 < stringWidth (fun _ => 600) (norm (some "hello".data)) 7 + 2 * 2 →
        op.size = 7) :=
  draw_text_fit_vec_single_line_fit (fun _ => 600) (some "hello".data) ⟨0, 0, 100, 20⟩
    "Helvetica" (21/2) 7 2 true (by norm_num) (by decide)

/-- C3: `finalize_info` overlays the template metadata with the user metadata
(user wins on every collision away from the four synthesised keys, and also on
Creator/Producer when the user supplies them), defaults `/Creator` and
`/Producer` only when absent after the overlay, and forces `/CreationDate` and
`/ModDate` to the same call-time timestamp regardless of any template- or
user-supplied dates. -/
theorem finalize_info_spec (now : String) (tmpl user : PDict) :
    (∀ k, k ≠ "/Creator" → k ≠ "/Producer" → k ≠ "/CreationDate" → k ≠ "/ModDate" →
      finalize_info now tmpl user k =
        (match user k with
         | some v => some v
         | none => tmpl k)) ∧
    (∀ k, (k = "/Creator" ∨ k = "/Producer") → dictUpdate tmpl user k = none →
      finalize_info now tmpl user k = some "Designer 6.5") ∧
    (∀ k v, (k = "/Creator" ∨ k = "/Producer") → dictUpdate tmpl user k = some v →
      finalize_info now tmpl user k = some v) ∧
    finalize_info now tmpl user "/CreationDate" = some now ∧
    finalize_info now tmpl user "/ModDate" = some now := by
  refine ⟨?_, ?_, ?_, ?_, ?_⟩
  · intro k h1 h2 h3 h4
    simp only [finalize_info, dictSet, dictSetdefault, dictUpdate, if_neg h4, if_neg h3,
      if_neg h2, if_neg h1]
  · intro k hk habs
    rcases hk with rfl | rfl <;>
      simp_all [finalize_info, dictSet, dictSetdefault, dictUpdate]
  · intro k v hk hval
    rcases hk with rfl | rfl <;>
      simp_all [finalize_info, dictSet, dictSetdefault, dictUpdate]
  · simp [finalize_info, dictSet, dictSetdefault, dictUpdate]
  · simp [finalize_info, dictSet, dictSetdefault, dictUpdate]

/-- Witness for C3: the user value wins for `/Title`, the default fills an
absent `/Producer`, and both dates are forced to the call time even when the
template and the user supply their own dates. -/
theorem finalize_info_spec_witness :
    finalize_info "D:20261012000000Z"
        (fun k => if k = "/Title" then some "A" else
                  if k = "/CreationDate" then some "D:OLD" else none)
        (fun k => if k = "/Title" then some "B" else
                  if k = "/ModDate" then some "D:USER" else none) "/Title" = some "B" ∧
    finalize_info "D:20261012000000Z"
        (fun k => if k = "/Title" then some "A" else
                  if k = "/CreationDate" then some "D:OLD" else none)
        (fun k => if k = "/Title" then some "B" else
                  if k = "/ModDate" then some "D:USER" else none) "/Producer" =
      some "Designer 6.5" ∧
    finalize_info "D:20261012000000Z"
        (fun k => if k = "/Title" then some "A" else
                  if k = "/CreationDate" then some "D:OLD" else none)
        (fun k => if k = "/Title" then some "B" else
                  if k = "/ModDate" then some "D:USER" else none) "/CreationDate" =
      some "D:20261012000000Z" ∧
    finalize_info "D:20261012000000Z"
        (fun k => if k = "/Title" then some "A" else
                  if k = "/CreationDate" then some "D:OLD" else none)
        (fun k => if k = "/Title" then some "B" else
                  if k = "/ModDate" then some "D:USER" else none) "/ModDate" =
      some "D:20261012000000Z" := by
  have h := finalize_info_spec "D:20261012000000Z"
      (fun k => if k = "/Title" then some "A" else
                if k = "/CreationDate" then some "D:OLD" else none)
      (fun k => if k = "/Title" then some "B" else
                if k = "/ModDate" then some "D:USER" else none)
  refine ⟨?_, ?_, h.2.2.2.1, h.2.2.2.2⟩
  · rw [h.1 "/Title" (by decide) (by decide) (by decide) (by decide)]
    decide
  · exact h.2.1 "/Producer" (Or.inr rfl) rfl

/-- C5: the TIN routing of the overlay composer.  A nonblank SSN with a blank
EIN draws the SSN digit groups `3-2-4` into the three SSN rectangles; a
nonblank EIN — also when an SSN is supplied as well — draws the EIN digit
groups `2-7` into the two EIN rectangles instead; with both blank no TIN
digits are drawn. -/
theorem tin_ops_routing_spec (ssn_field ein_field : Option PyStr) :
    (∀ (_ : norm ssn_field ≠ []) (_ : norm ein_field = []),
      tin_ops ssn_field ein_field =
        (if ((norm ssn_field).filter Char.isDigit).length = 9 then
          [⟨"ssn_1", ((norm ssn_field).filter Char.isDigit).take 3, 3⟩,
           ⟨"ssn_2", (((norm ssn_field).filter Char.isDigit).drop 3).take 2, 2⟩,
           ⟨"ssn_3", ((norm ssn_field).filter Char.isDigit).drop 5, 4⟩]
        else [⟨"ssn_1", [], 3⟩, ⟨"ssn_2", [], 2⟩, ⟨"ssn_3", [], 4⟩])) ∧
    (∀ (_ : norm ein_field ≠ []),
      tin_ops ssn_field ein_field =
        (if ((norm ein_field).filter Char.isDigit).length = 9 then
          [⟨"ein_1", ((norm ein_field).filter Char.isDigit).take 2, 2⟩,
           ⟨"ein_2", ((norm ein_field).filter Char.isDigit).drop 2, 7⟩]
        else [⟨"ein_1", [], 2⟩, ⟨"ein_2", [], 7⟩])) ∧
    (norm ssn_field = [] → norm ein_field = [] → tin_ops ssn_field ein_field = []) := by
  refine ⟨?_, ?_, ?_⟩
  · intro h1 h2
    simp only [tin_ops, split_ssn, Option.getD_some, if_pos (And.intro h1 h2)]
    split <;> rfl
  · intro h
    have hguard : ¬ (norm ssn_field ≠ [] ∧ norm ein_field = []) := by
      intro hc
      exact h hc.2
    simp only [tin_ops, split_ein, Option.getD_some, if_neg hguard, if_pos h]
    split <;> rfl
  · intro h1 h2
    have hguard : ¬ (norm ssn_field ≠ [] ∧ norm ein_field = []) := by
      intro hc
      exact hc.1 h1
    simp only [tin_ops, if_neg hguard, if_neg (not_not_intro h2)]

/-- Witness for C5: SSN `123-45-6789` alone yields the groups
`123`/`45`/`6789`; supplying an EIN as well routes to the EIN groups
`12`/`3456789`. -/
theorem tin_ops_routing_spec_witness :
    tin_ops (some "123-45-6789".data) none =
      [⟨"ssn_1", "123".data, 3⟩, ⟨"ssn_2", "45".data, 2⟩, ⟨"ssn_3", "6789".data, 4⟩] ∧
    tin_ops (some "123-45-6789".data) (some "12-3456789".data) =
      [⟨"ein_1", "12".data, 2⟩, ⟨"ein_2", "3456789".data, 7⟩] ∧
    tin_ops none none = [] := by
  refine ⟨?_, ?_, ?_⟩
  · rw [(tin_ops_routing_spec (some "123-45-6789".data) none).1 (by decide) (by decide)]
    decide
  · rw [(tin_ops_routing_spec (some "123-45-6789".data) (some "12-3456789".data)).2.1
      (by decide)]
    decide
  · exact (tin_ops_routing_spec none none).2.2 (by decide) (by decide)

/-- C10: a string whose digit count is not exactly 9 splits to empty groups
(`split_ssn` three empties, `split_ein` two empties), and
`draw_digits_in_cells_vec` on a string with no digits draws nothing, so a
malformed TIN leaves the rectangles untouched.  Absent values (`None`) are
covered by the `Option` argument, and all the functions are total, so no
input raises. -/
theorem split_tin_malformed_spec :
    (∀ s : Option PyStr, ((s.getD []).filter Char.isDigit).length ≠ 9 →
      split_ssn s = ([], [], []) ∧ split_ein s = ([], [])) ∧
    (∀ (cw : Char → ℕ) (t : Option PyStr) (rect : Option Rect) (slots : ℕ)
        (maxS inset : ℚ),
      (t.getD []).filter Char.isDigit = [] →
      draw_digits_in_cells_vec cw t rect slots maxS inset = []) := by
  constructor
  · intro s h
    constructor
    · simp only [split_ssn, if_neg h]
    · simp only [split_ein, if_neg h]
  · intro cw t rect slots maxS inset h
    cases rect with
    | none => rfl
    | some r => simp [draw_digits_in_cells_vec, h]

/-- Witness for C10: a 5-digit SSN, a 10-digit EIN, and a digit-free text. -/
theorem split_tin_malformed_spec_witness :
    (split_ssn (some "12-345".data) = ([], [], []) ∧
      split_ein (some "12-345".data) = ([], [])) ∧
    (split_ssn (some "12-34567890".data) = ([], [], []) ∧
      split_ein (some "12-34567890".data) = ([], [])) ∧
    (split_ssn none = ([], [], []) ∧ split_ein none = ([], [])) ∧
    draw_digits_in_cells_vec (fun _ => 556) (some "no digits".data)
      (some ⟨0, 0, 50, 10⟩) 3 12 2 = [] := by
  refine ⟨?_, ?_, ?_, ?_⟩
  · exact split_tin_malformed_spec.1 (some "12-345".data) (by decide)
  · exact split_tin_malformed_spec.1 (some "12-34567890".data) (by decide)
  · exact split_tin_malformed_spec.1 none (by decide)
  · exact split_tin_malformed_spec.2 (fun _ => 556) (some "no digits".data)
      (some ⟨0, 0, 50, 10⟩) 3 12 2 (by decide)

/-- C7: the classification selector activates at most one checkbox; matching
is determined by the lowercased string (case-insensitive aliases, e.g.
`s corp`, `s_corp`, `s`, `S CORP` all select the S-corporation box); the
selected checkbox is a bold vector glyph centred at the target rectangle's
centre, drawn identically whether or not aggressive raster mode is on; and a
string matching no alias activates no checkbox. -/
theorem classification_check_ops_spec :
    (∀ (aggr : Bool) (cls : Option PyStr) (rects : ChkRole → Option Rect),
      (classification_check_ops aggr cls rects).length ≤ 1) ∧
    (∀ (aggr : Bool) (s t : PyStr) (rects : ChkRole → Option Rect),
      pyLower s = pyLower t →
      classification_check_ops aggr (some s) rects =
        classification_check_ops aggr (some t) rects) ∧
    (classification_role (some "s corp".data) = some ChkRole.s_corp ∧
      classification_role (some "s_corp".data) = some ChkRole.s_corp ∧
      classification_role (some "s".data) = some ChkRole.s_corp ∧
      classification_role (some "S CORP".data) = some ChkRole.s_corp) ∧
    (∀ (aggr : Bool) (cls : Option PyStr) (rects : ChkRole → Option Rect),
      classification_check_ops aggr cls rects = classification_check_ops false cls rects) ∧
    (∀ (aggr : Bool) (cls : Option PyStr) (rects : ChkRole → Option Rect),
      classification_role cls = none → classification_check_ops aggr cls rects = []) ∧
    (∀ (aggr : Bool) (cls : Option PyStr) (rects : ChkRole → Option Rect)
        (role : ChkRole) (r : Rect),
      classification_role cls = some role → rects role = some r →
      classification_check_ops aggr cls rects =
        [⟨"Helvetica-Bold", 19/2, (r.x0 + r.x1) / 2, (r.y0 + r.y1) / 2 - (19/2) / (33/10),
          '✓'⟩]) := by
  refine ⟨?_, ?_, by decide, ?_, ?_, ?_⟩
  · intro aggr cls rects
    unfold classification_check_ops
    cases hrole : classification_role cls with
    | none => simp
    | some role =>
      cases hdraw : draw_check_vec (rects role) '✓' (19/2) "Helvetica-Bold" with
      | none => simp [hdraw]
      | some op => simp [hdraw]
  · intro aggr s t rects h
    have hnorm : classification_norm (some s) = classification_norm (some t) := by
      simp only [classification_norm, Option.getD_some, h]
    unfold classification_check_ops classification_role
    rw [hnorm]
  · intro aggr cls rects
    rfl
  · intro aggr cls rects h
    unfold classification_check_ops
    rw [h]
  · intro aggr cls rects role r hrole hrect
    unfold classification_check_ops
    rw [hrole]
    simp only [draw_check_vec, hrect, rect_center]

/-- Witness for C7, at a concrete lowercase/uppercase pair and a concrete
rectangle. -/
theorem classification_check_ops_spec_witness :
    classification_check_ops true (some "LLC".data) (fun _ => some ⟨0, 0, 10, 10⟩) =
      [⟨"Helvetica-Bold", 19/2, 5, 5 - (19/2) / (33/10), '✓'⟩] ∧
    classification_check_ops true (some "corporation".data) (fun _ => some ⟨0, 0, 10, 10⟩) =
      [] ∧
    classification_check_ops true (some "S Corp".data) (fun _ => some ⟨0, 0, 10, 10⟩) =
      classification_check_ops true (some "s corp".data) (fun _ => some ⟨0, 0, 10, 10⟩) := by
  refine ⟨?_, ?_, ?_⟩
  · have h := classification_check_ops_spec.2.2.2.2.2 true (some "LLC".data)
      (fun _ => some ⟨0, 0, 10, 10⟩) ChkRole.llc ⟨0, 0, 10, 10⟩ (by decide) rfl
    rw [h]
    norm_num
  · exact classification_check_ops_spec.2.2.2.2.1 true (some "corporation".data)
      (fun _ => some ⟨0, 0, 10, 10⟩) (by decide)
  · exact classification_check_ops_spec.2.1 true "S Corp".data "s corp".data
      (fun _ => some ⟨0, 0, 10, 10⟩) (by decide)

/-- C4 (code-bug evaluation): the PDF temp-file policy does hold — in full
mode the overlay is removed even without `--clean` while watermark layers need
the flag, and in bypass mode everything needs the flag — but the rasterised
PNG `/tmp/tmp_a1b2c3.png` returned by `compose_overlay_page1` for cleanup is
not removed even with `--clean`: `main` never reads `tmp_pngs`, and the
fallback only removes working-directory names ending `.png` that contain
`.overlay`, which never match `tempfile` paths. -/
theorem main_cleanup_aggressive_png_leak :
    main_cleanup false true "out.overlay.pdf" [] ["fw9.pdf", "out.pdf"] =
      ["out.overlay.pdf"] ∧
    "/tmp/tmp_a1b2c3.png" ∉ main_cleanup false true "out.overlay.pdf" []
      ["fw9.pdf", "out.pdf"] ∧
    main_cleanup false false "out.overlay.pdf" ["out.wm_p2.pdf"] ["fw9.pdf"] =
      ["out.overlay.pdf"] ∧
    main_cleanup false true "out.overlay.pdf" ["out.wm_p2.pdf"] ["fw9.pdf"] =
      ["out.overlay.pdf", "out.wm_p2.pdf"] ∧
    main_cleanup true false "tpl.pdf" ["tpl.wm_p1.pdf"] [] = [] ∧
    main_cleanup true true "tpl.pdf" ["tpl.wm_p1.pdf"] [] = ["tpl.wm_p1.pdf"] := by
  decide

theorem wm_pages_from_annotList (wmSel : ℕ → Bool) (wm : ℕ → PdfPage)
    (hwm : ∀ i, (wm i).annots = none) :
    ∀ (ts : List PdfPage) (i : ℕ),
      (wm_pages_from wmSel wm ts i).map annotList = ts.map annotList := by
  intro ts
  induction ts with
  | nil => intro i; rfl
  | cons t ts ih =>
    intro i
    by_cases h : wmSel (i + 1) = true <;>
      simp [wm_pages_from, h, ih, merge_page, annotList, hwm i]

theorem wm_pages_from_unselected (wmSel : ℕ → Bool) (wm : ℕ → PdfPage) :
    ∀ (ts : List PdfPage) (i k : ℕ), wmSel (i + k + 1) = false →
      (wm_pages_from wmSel wm ts i)[k]? = ts[k]? := by
  intro ts
  induction ts with
  | nil => intro i k _; rfl
  | cons t ts ih =>
    intro i k hk
    cases k with
    | zero =>
      simp only [Nat.add_zero] at hk
      simp [wm_pages_from, hk]
    | succ k =>
      have := ih (i + 1) k (by simpa [Nat.add_assoc, Nat.add_comm, Nat.add_left_comm] using hk)
      simpa [wm_pages_from] using this

/-- C2: in full mode the composed page 1 has its annotations stripped
unconditionally (it ends with an empty annotation array whether or not it was
watermarked), while pages 2..N keep exactly the annotation arrays their
template pages carried, watermarked or not — non-watermarked pages are copied
unmodified; in bypass mode every page keeps its template page's annotations.
The overlay and the watermark layers come from fresh reportlab canvases and so
carry no annotations (`hov`, `hwm`); PyPDF2's `merge_page` collects the
annotations of both pages. -/
theorem build_writer_annots_spec
    (t0 : PdfPage) (rest : List PdfPage) (ov : PdfPage)
    (wmSel : ℕ → Bool) (wm : ℕ → PdfPage)
    (hov : ov.annots = none) (hwm : ∀ i, (wm i).annots = none) :
    ∃ p1 tailPages,
      build_writer_with_layers (t0 :: rest) ov wmSel wm = p1 :: tailPages ∧
      p1.annots = some [] ∧
      (wmSel 1 = true → p1.contents = (wm 0).contents ++ t0.contents ++ ov.contents) ∧
      (wmSel 1 = false → p1.contents = t0.contents ++ ov.contents) ∧
      tailPages.map annotList = rest.map annotList ∧
      (∀ k, wmSel (k + 2) = false → tailPages[k]? = rest[k]?) ∧
      (build_writer_wm_only (t0 :: rest) wmSel wm).map annotList =
        (t0 :: rest).map annotList := by
  refine ⟨_, _, rfl, ?_, ?_, ?_, ?_, ?_, ?_⟩
  · simp [merge_page, strip_annots, annotList, hov]
  · intro h
    simp [merge_page, strip_annots, h]
  · intro h
    simp [merge_page, strip_annots, h]
  · exact wm_pages_from_annotList wmSel wm hwm rest 1
  · intro k hk
    exact wm_pages_from_unselected wmSel wm rest 1 k
      (by rw [show 1 + k + 1 = k + 2 from by omega]; exact hk)
  · exact wm_pages_from_annotList wmSel wm hwm (t0 :: rest) 0

/-- Witness for C2: a two-page template whose pages carry annotations, a
watermark on every page. -/
theorem build_writer_annots_spec_witness :
    ∃ p1 tailPages,
      build_writer_with_layers
          [⟨["tpl1"], some ["a1"]⟩, ⟨["tpl2"], some ["a2"]⟩]
          ⟨["ov"], none⟩ (fun _ => true) (fun _ => ⟨["wm"], none⟩) = p1 :: tailPages ∧
      p1.annots = some [] ∧
      ((fun _ : ℕ => true) 1 = true →
        p1.contents = ["wm"] ++ ["tpl1"] ++ ["ov"]) ∧
      ((fun _ : ℕ => true) 1 = false → p1.contents = ["tpl1"] ++ ["ov"]) ∧
      tailPages.map annotList = [⟨["tpl2"], some ["a2"]⟩].map annotList ∧
      (∀ k, (fun _ : ℕ => true) (k + 2) = false →
        tailPages[k]? = ([⟨["tpl2"], some ["a2"]⟩] : List PdfPage)[k]?) ∧
      (build_writer_wm_only
          [⟨["tpl1"], some ["a1"]⟩, ⟨["tpl2"], some ["a2"]⟩]
          (fun _ => true) (fun _ => ⟨["wm"], none⟩)).map annotList =
        ([⟨["tpl1"], some ["a1"]⟩, ⟨["tpl2"], some ["a2"]⟩] : List PdfPage).map annotList :=
  build_writer_annots_spec ⟨["tpl1"], some ["a1"]⟩ [⟨["tpl2"], some ["a2"]⟩]
    ⟨["ov"], none⟩ (fun _ => true) (fun _ => ⟨["wm"], none⟩) rfl (fun _ => rfl)

theorem tileCount_eq_zero {step : ℚ} (h : 0 < step) (bound x : ℚ) :
    tileCount bound x step = 0 ↔ bound ≤ x := by
  simp only [tileCount, Int.toNat_eq_zero]
  rw [Int.ceil_le]
  push_cast
  rw [div_le_iff₀ h, zero_mul]
  constructor <;> intro <;> linarith

theorem tileCount_succ {step : ℚ} (h : 0 < step) {bound x : ℚ} (hx : x < bound) :
    tileCount bound x step = tileCount bound (x + step) step + 1 := by
  unfold tileCount
  have hne : step ≠ 0 := ne_of_gt h
  have ht : (bound - (x + step)) / step = (bound - x) / step - 1 := by
    field_simp
    ring
  rw [ht, Int.ceil_sub_one]
  have hpos : 0 < ⌈(bound - x) / step⌉ := by
    apply Int.ceil_pos.mpr
    exact div_pos (by linarith) h
  omega

theorem lt_of_lt_tileCount {step : ℚ} (h : 0 < step) {bound x : ℚ} {i : ℕ}
    (hi : i < tileCount bound x step) : x + (i : ℚ) * step < bound := by
  have h1 : (i : ℤ) < ⌈(bound - x) / step⌉ := by
    unfold tileCount at hi
    omega
  have h2 : ((i : ℤ) : ℚ) < (bound - x) / step := Int.lt_ceil.mp h1
  rw [Int.cast_natCast, lt_div_iff₀ h] at h2
  linarith

theorem tileCount_lt_of_lt {step : ℚ} (h : 0 < step) {bound x : ℚ} {i : ℕ}
    (hx : x + (i : ℚ) * step < bound) : i < tileCount bound x step := by
  have h2 : ((i : ℤ) : ℚ) < (bound - x) / step := by
    rw [Int.cast_natCast, lt_div_iff₀ h]
    linarith
  have h1 : (i : ℤ) < ⌈(bound - x) / step⌉ := Int.lt_ceil.mpr h2
  unfold tileCount
  omega

theorem flatMap_after_map {α β γ : Type} (l : List α) (g : α → β) (f : β → List γ) :
    (l.map g).flatMap f = l.flatMap (fun x => f (g x)) := by
  induction l with
  | nil => rfl
  | cons a l ih => simp [ih]

theorem flatMap_congr_fun {α β : Type} (l : List α) (f g : α → List β)
    (h : ∀ a ∈ l, f a = g a) : l.flatMap f = l.flatMap g := by
  induction l with
  | nil => rfl
  | cons a l ih =>
    simp only [List.flatMap_cons]
    rw [h a (List.mem_cons_self a l), ih (fun b hb => h b (List.mem_cons_of_mem a hb))]

theorem tile_row_aux_eq {w xs : ℚ} (h : 0 < xs) :
    ∀ (fuel : ℕ) (x : ℚ), tileCount w x xs ≤ fuel →
      tile_row_aux w xs fuel x =
        some ((List.range (tileCount w x xs)).map (fun (i : ℕ) => x + (i : ℚ) * xs)) := by
  intro fuel
  induction fuel with
  | zero =>
    intro x hx
    have h0 : tileCount w x xs = 0 := Nat.le_zero.mp hx
    have hxw : ¬ x < w := not_lt.mpr ((tileCount_eq_zero h w x).mp h0)
    simp [tile_row_aux, hxw, h0]
  | succ fuel ih =>
    intro x hx
    by_cases hxw : x < w
    · have hsucc := tileCount_succ h hxw
      have hle : tileCount w (x + xs) xs ≤ fuel := by omega
      rw [tile_row_aux, if_pos hxw, ih (x + xs) hle, hsucc]
      simp only [Option.map_some', Option.some.injEq]
      rw [List.range_succ_eq_map, List.map_cons, List.map_map]
      congr 1
      · push_cast
        ring
      · apply List.map_congr_left
        intro i _
        simp only [Function.comp_apply]
        push_cast
        ring
    · have h0 : tileCount w x xs = 0 := (tileCount_eq_zero h w x).mpr (not_lt.mp hxw)
      rw [tile_row_aux, if_neg hxw, h0]
      rfl

theorem tile_row_aux_none {w xs : ℚ} (hxs : xs ≤ 0) :
    ∀ (fuel : ℕ) (x : ℚ), x < w → tile_row_aux w xs fuel x = none := by
  intro fuel
  induction fuel with
  | zero => intro x hx; simp [tile_row_aux, hx]
  | succ fuel ih =>
    intro x hx
    rw [tile_row_aux, if_pos hx, ih (x + xs) (by linarith)]
    rfl

theorem tile_grid_aux_eq {w h x0 xs ys : ℚ} (hxs : 0 < xs) (hys : 0 < ys)
    (rowFuel : ℕ) (hrf : tileCount w x0 xs ≤ rowFuel) :
    ∀ (fuel : ℕ) (y : ℚ), tileCount h y ys ≤ fuel →
      tile_grid_aux w h x0 xs ys rowFuel fuel y =
        some ((List.range (tileCount h y ys)).flatMap
          (fun (j : ℕ) => (List.range (tileCount w x0 xs)).map
            (fun (i : ℕ) => (x0 + (i : ℚ) * xs, y + (j : ℚ) * ys)))) := by
  intro fuel
  induction fuel with
  | zero =>
    intro y hy
    have h0 : tileCount h y ys = 0 := Nat.le_zero.mp hy
    have hyh : ¬ y < h := not_lt.mpr ((tileCount_eq_zero hys h y).mp h0)
    simp [tile_grid_aux, hyh, h0]
  | succ fuel ih =>
    intro y hy
    by_cases hyh : y < h
    · have hsucc := tileCount_succ hys hyh
      have hle : tileCount h (y + ys) ys ≤ fuel := by omega
      rw [tile_grid_aux, if_pos hyh, tile_row_aux_eq hxs rowFuel x0 hrf,
        ih (y + ys) hle, hsucc]
      simp only [Option.map_some', Option.some.injEq]
      rw [List.range_succ_eq_map, List.flatMap_cons, flatMap_after_map]
      congr 1
      · rw [List.map_map]
        apply List.map_congr_left
        intro i _
        simp only [Function.comp_apply, Prod.mk.injEq]
        exact ⟨trivial, by push_cast; ring⟩
      · apply flatMap_congr_fun
        intro j _
        apply List.map_congr_left
        intro i _
        simp only [Prod.mk.injEq]
        exact ⟨trivial, by push_cast; ring⟩
    · have h0 : tileCount h y ys = 0 := (tileCount_eq_zero hys h y).mpr (not_lt.mp hyh)
      rw [tile_grid_aux, if_neg hyh, h0]
      rfl

theorem tile_grid_aux_none_x {w h x0 xs ys : ℚ} (hxs : xs ≤ 0) (hxw : x0 < w) :
    ∀ (rowFuel fuel : ℕ) (y : ℚ), y < h →
      tile_grid_aux w h x0 xs ys rowFuel fuel y = none := by
  intro rowFuel fuel y hy
  cases fuel with
  | zero => simp [tile_grid_aux, hy]
  | succ fuel =>
    rw [tile_grid_aux, if_pos hy, tile_row_aux_none hxs rowFuel x0 hxw]

theorem tile_grid_aux_none_y {w h x0 xs ys : ℚ} (hys : ys ≤ 0) (hxs : 0 < xs) :
    ∀ (fuel : ℕ) (y : ℚ), y < h →
      tile_grid_aux w h x0 xs ys (tileCount w x0 xs) fuel y = none := by
  intro fuel
  induction fuel with
  | zero => intro y hy; simp [tile_grid_aux, hy]
  | succ fuel ih =>
    intro y hy
    rw [tile_grid_aux, if_pos hy,
      tile_row_aux_eq hxs (tileCount w x0 xs) x0 (le_refl _),
      ih (y + ys) (by linarith)]
    rfl

/-- C6 (amended): for positive steps and nonnegative offsets, the tiling of
`compose_watermark_page` draws exactly
`⌈(W−x0)/xs⌉ × ⌈(H−y0)/ys⌉` tile instances (exact, with the ceilings clamped
to ℕ), every instance sits at a grid point `(x0+i·xs, y0+j·ys)` strictly below
the page bound on each axis and inside the page rectangle extended by one
step, and every grid point strictly below the bounds is drawn. -/
theorem tile_positions_spec (w h x0 y0 xs ys : ℚ)
    (hxs : 0 < xs) (hys : 0 < ys) (hx0 : 0 ≤ x0) (hy0 : 0 ≤ y0) :
    ∃ L : List (ℚ × ℚ),
      tile_positions w h x0 y0 xs ys = some L ∧
      L.length = tileCount w x0 xs * tileCount h y0 ys ∧
      (∀ p ∈ L, ∃ i j : ℕ, p = (x0 + (i : ℚ) * xs, y0 + (j : ℚ) * ys)) ∧
      (∀ p ∈ L, p.1 < w ∧ p.2 < h) ∧
      (∀ p ∈ L, -xs ≤ p.1 ∧ p.1 ≤ w + xs ∧ -ys ≤ p.2 ∧ p.2 ≤ h + ys) ∧
      (∀ i j : ℕ, x0 + (i : ℚ) * xs < w → y0 + (j : ℚ) * ys < h →
        (x0 + (i : ℚ) * xs, y0 + (j : ℚ) * ys) ∈ L) := by
  refine ⟨_, tile_grid_aux_eq hxs hys (tileCount w x0 xs) (le_refl _)
    (tileCount h y0 ys) y0 (le_refl _), ?_, ?_, ?_, ?_, ?_⟩
  · rw [List.length_flatMap]
    have hmap : (List.range (tileCount h y0 ys)).map
        (List.length ∘ fun (j : ℕ) => (List.range (tileCount w x0 xs)).map
          (fun (i : ℕ) => (x0 + (i : ℚ) * xs, y0 + (j : ℚ) * ys))) =
        (List.range (tileCount h y0 ys)).map (fun _ => tileCount w x0 xs) := by
      apply List.map_congr_left
      intro j _
      simp
    rw [hmap, List.map_const', List.sum_replicate, smul_eq_mul, List.length_range]
    exact Nat.mul_comm _ _
  · intro p hp
    obtain ⟨j, _, hmem⟩ := List.mem_flatMap.mp hp
    obtain ⟨i, _, rfl⟩ := List.mem_map.mp hmem
    exact ⟨i, j, rfl⟩
  · intro p hp
    obtain ⟨j, hj, hmem⟩ := List.mem_flatMap.mp hp
    obtain ⟨i, hi, rfl⟩ := List.mem_map.mp hmem
    exact ⟨lt_of_lt_tileCount hxs (List.mem_range.mp hi),
      lt_of_lt_tileCount hys (List.mem_range.mp hj)⟩
  · intro p hp
    obtain ⟨j, hj, hmem⟩ := List.mem_flatMap.mp hp
    obtain ⟨i, hi, rfl⟩ := List.mem_map.mp hmem
    have h1 : x0 + (i : ℚ) * xs < w := lt_of_lt_tileCount hxs (List.mem_range.mp hi)
    have h2 : y0 + (j : ℚ) * ys < h := lt_of_lt_tileCount hys (List.mem_range.mp hj)
    have hi0 : (0 : ℚ) ≤ (i : ℚ) * xs := mul_nonneg (Nat.cast_nonneg i) hxs.le
    have hj0 : (0 : ℚ) ≤ (j : ℚ) * ys := mul_nonneg (Nat.cast_nonneg j) hys.le
    refine ⟨by simpa using by linarith, by simpa using by linarith,
      by simpa using by linarith, by simpa using by linarith⟩
  · intro i j hiw hjh
    apply List.mem_flatMap.mpr
    exact ⟨j, List.mem_range.mpr (tileCount_lt_of_lt hys hjh),
      List.mem_map.mpr ⟨i, List.mem_range.mpr (tileCount_lt_of_lt hxs hiw), rfl⟩⟩

/-- Witness for C6 (amended) at the default letter-page tile spec:
`(x0, y0) = (24, 24)`, `(xs, ys) = (144, 120)` on a 612×792 page. -/
theorem tile_positions_spec_witness :
    ∃ L : List (ℚ × ℚ),
      tile_positions 612 792 24 24 144 120 = some L ∧
      L.length = tileCount 612 24 144 * tileCount 792 24 120 ∧
      (∀ p ∈ L, ∃ i j : ℕ, p = (24 + (i : ℚ) * 144, 24 + (j : ℚ) * 120)) ∧
      (∀ p ∈ L, p.1 < 612 ∧ p.2 < 792) ∧
      (∀ p ∈ L, -144 ≤ p.1 ∧ p.1 ≤ 612 + 144 ∧ -120 ≤ p.2 ∧ p.2 ≤ 792 + 120) ∧
      (∀ i j : ℕ, 24 + (i : ℚ) * 144 < 612 → 24 + (j : ℚ) * 120 < 792 →
        (24 + (i : ℚ) * 144, 24 + (j : ℚ) * 120) ∈ L) :=
  tile_positions_spec 612 792 24 24 144 120 (by norm_num) (by norm_num) (by norm_num)
    (by norm_num)

/-- C6 counterexample: with the negative offset `x_offset = -300`
(steps 100×100 on a 50×50 page) an instance is drawn at `x = -300`, which
lies outside the page rectangle extended by one step (`¬ (-100 ≤ -300)`), so
the claim's containment clause fails as universally stated. -/
theorem tile_positions_outside_counterexample :
    ∃ L : List (ℚ × ℚ),
      tile_positions 50 50 (-300) 24 100 100 = some L ∧
      ((-300 : ℚ), (24 : ℚ)) ∈ L ∧
      ¬ (-(100 : ℚ) ≤ (-300 : ℚ)) := by
  refine ⟨_, tile_grid_aux_eq (by norm_num) (by norm_num) (tileCount 50 (-300) 100)
    (le_refl _) (tileCount 50 24 100) 24 (le_refl _), ?_, by norm_num⟩
  apply List.mem_flatMap.mpr
  refine ⟨0, List.mem_range.mpr (tileCount_lt_of_lt (by norm_num) ?_), ?_⟩
  · push_cast
    norm_num
  · apply List.mem_map.mpr
    refine ⟨0, List.mem_range.mpr (tileCount_lt_of_lt (by norm_num) ?_), ?_⟩
    · push_cast
      norm_num
    · push_cast
      norm_num

/-- C9: the watermark tiling terminates for every tile spec with positive
`x_step` and `y_step` (each loop strictly increases its coordinate past the
page bound); with a non-positive `x_step` and offsets below the page bounds
the inner loop never exits (no amount of fuel makes it finish), and with a
non-positive `y_step` the outer loop likewise diverges. -/
theorem compose_watermark_tiling_termination :
    (∀ w h x0 y0 xs ys : ℚ, 0 < xs → 0 < ys →
      ∃ rowFuel fuel : ℕ, (tile_grid_aux w h x0 xs ys rowFuel fuel y0).isSome) ∧
    (∀ w h x0 y0 xs ys : ℚ, xs ≤ 0 → x0 < w → y0 < h →
      ∀ rowFuel fuel : ℕ, tile_grid_aux w h x0 xs ys rowFuel fuel y0 = none) ∧
    (∀ w h x0 y0 xs ys : ℚ, 0 < xs → ys ≤ 0 → y0 < h →
      ∀ fuel : ℕ, tile_grid_aux w h x0 xs ys (tileCount w x0 xs) fuel y0 = none) := by
  refine ⟨?_, ?_, ?_⟩
  · intro w h x0 y0 xs ys hxs hys
    exact ⟨tileCount w x0 xs, tileCount h y0 ys, by
      rw [tile_grid_aux_eq hxs hys (tileCount w x0 xs) (le_refl _)
        (tileCount h y0 ys) y0 (le_refl _)]
      rfl⟩
  · intro w h x0 y0 xs ys hxs hxw hyh rowFuel fuel
    exact tile_grid_aux_none_x hxs hxw rowFuel fuel y0 hyh
  · intro w h x0 y0 xs ys hxs hys hyh fuel
    exact tile_grid_aux_none_y hys hxs fuel y0 hyh

/-- Witness for C9: a 10×10 page; steps `1×1` terminate, a zero `x_step` or
`y_step` with offsets inside the page never does. -/
theorem compose_watermark_tiling_termination_witness :
    (∃ rowFuel fuel : ℕ, (tile_grid_aux 10 10 0 1 1 rowFuel fuel 0).isSome) ∧
    (∀ rowFuel fuel : ℕ, tile_grid_aux 10 10 0 0 1 rowFuel fuel 0 = none) ∧
    (∀ fuel : ℕ, tile_grid_aux 10 10 0 1 0 (tileCount 10 0 1) fuel 0 = none) :=
  ⟨compose_watermark_tiling_termination.1 10 10 0 0 1 1 (by norm_num) (by norm_num),
   fun rowFuel fuel => compose_watermark_tiling_termination.2.1 10 10 0 0 0 1
     (by norm_num) (by norm_num) (by norm_num) rowFuel fuel,
   fun fuel => compose_watermark_tiling_termination.2.2 10 10 0 0 1 0
     (by norm_num) (by norm_num) (by norm_num) fuel⟩

theorem mem_of_head?_eq {α : Type} : ∀ (l : List α) (a : α), l.head? = some a → a ∈ l := by
  intro l a h
  cases l with
  | nil => cases h
  | cons b l =>
    simp only [List.head?_cons, Option.some.injEq] at h
    exact h ▸ List.mem_cons_self b l

theorem mem_of_getLast?_eq {α : Type} : ∀ (l : List α) (a : α), l.getLast? = some a → a ∈ l := by
  intro l
  induction l with
  | nil => intro a h; cases h
  | cons b l ih =>
    intro a h
    cases l with
    | nil =>
      simp only [List.getLast?_singleton, Option.some.injEq] at h
      exact h ▸ List.mem_cons_self b []
    | cons c' l' =>
      rw [List.getLast?_cons_cons] at h
      exact List.mem_cons_of_mem b (ih a h)

theorem dropWhile_eq_self_of_head {p : Char → Bool} :
    ∀ l : PyStr, (∀ c, l.head? = some c → p c = false) → l.dropWhile p = l := by
  intro l h
  cases l with
  | nil => rfl
  | cons c l =>
    rw [List.dropWhile_cons, h c rfl]
    simp

theorem stripL_eq_self {l : PyStr} (h1 : ∀ c, l.head? = some c → pyIsSpace c = false)
    (h2 : ∀ c, l.getLast? = some c → pyIsSpace c = false) : stripL l = l := by
  unfold stripL
  rw [dropWhile_eq_self_of_head l h1,
    dropWhile_eq_self_of_head l.reverse
      (fun c hc => h2 c (by rwa [List.head?_reverse] at hc)),
    List.reverse_reverse]

theorem NoWS_stripL_eq {w : PyStr} (h : NoWS w) : stripL w = w :=
  stripL_eq_self (fun c hc => h c (mem_of_head?_eq w c hc))
    (fun c hc => h c (mem_of_getLast?_eq w c hc))

theorem stripL_cons_space (l : PyStr) : stripL (' ' :: l) = stripL l := by
  unfold stripL
  rw [List.dropWhile_cons]
  norm_num [pyIsSpace]

theorem stripL_append_single_space {l : PyStr} (hne : l ≠ [])
    (h1 : ∀ c, l.head? = some c → pyIsSpace c = false)
    (h2 : ∀ c, l.getLast? = some c → pyIsSpace c = false) :
    stripL (l ++ [' ']) = l := by
  unfold stripL
  have hd : (l ++ [' ']).dropWhile pyIsSpace = l ++ [' '] := by
    apply dropWhile_eq_self_of_head
    intro c hc
    cases l with
    | nil => exact absurd rfl hne
    | cons a l' =>
      simp only [List.cons_append, List.head?_cons, Option.some.injEq] at hc
      exact hc ▸ h1 a rfl
  rw [hd, List.reverse_append, List.reverse_singleton, List.singleton_append,
    List.dropWhile_cons]
  norm_num [pyIsSpace]
  rw [dropWhile_eq_self_of_head l.reverse
    (fun c hc => h2 c (by rwa [List.head?_reverse] at hc)), List.reverse_reverse]

theorem glue_nil (w0 : PyStr) : glue w0 [] = w0 := by
  simp [glue]

theorem glue_cons (w0 w : PyStr) (ws : List PyStr) :
    glue w0 (w :: ws) = w0 ++ ' ' :: glue w ws := by
  simp [glue]

theorem glue_append_one (w0 : PyStr) (ws : List PyStr) (w : PyStr) :
    glue w0 (ws ++ [w]) = glue w0 ws ++ ' ' :: w := by
  simp [glue]

theorem glue_ne_nil {w0 : PyStr} (hw0 : w0 ≠ []) (ws : List PyStr) : glue w0 ws ≠ [] := by
  unfold glue
  intro h
  exact hw0 (List.append_eq_nil.mp h).1

theorem head?_glue {w0 : PyStr} (hw0 : w0 ≠ []) (ws : List PyStr) :
    (glue w0 ws).head? = w0.head? := by
  cases w0 with
  | nil => exact absurd rfl hw0
  | cons a t => simp [glue]

theorem getLast?_glue : ∀ (ws : List PyStr) (w0 : PyStr), w0 ≠ [] →
    (∀ w ∈ ws, w ≠ []) →
    ∃ c, (glue w0 ws).getLast? = some c ∧ (c ∈ w0 ∨ ∃ w ∈ ws, c ∈ w) := by
  intro ws
  induction ws with
  | nil =>
    intro w0 hw0 _
    rw [glue_nil]
    exact ⟨w0.getLast hw0, List.getLast?_eq_getLast w0 hw0,
      Or.inl (List.getLast_mem hw0)⟩
  | cons w ws ih =>
    intro w0 hw0 hws
    obtain ⟨c, hc, hmem⟩ := ih w (hws w (List.mem_cons_self w ws))
      (fun u hu => hws u (List.mem_cons_of_mem w hu))
    refine ⟨c, ?_, ?_⟩
    · rw [glue_cons, List.getLast?_append_cons, ← List.singleton_append,
        List.getLast?_append_of_ne_nil [' ']
          (glue_ne_nil (hws w (List.mem_cons_self w ws)) ws)]
      exact hc
    · rcases hmem with h | ⟨u, hu, h⟩
      · exact Or.inr ⟨w, List.mem_cons_self w ws, h⟩
      · exact Or.inr ⟨u, List.mem_cons_of_mem w hu, h⟩

theorem mem_glue {c : Char} : ∀ {w0 : PyStr} {ws : List PyStr}, c ∈ glue w0 ws →
    c ∈ w0 ∨ c = ' ' ∨ ∃ w ∈ ws, c ∈ w := by
  intro w0 ws h
  unfold glue at h
  rcases List.mem_append.mp h with h | h
  · exact Or.inl h
  · obtain ⟨w, hw, hc⟩ := List.mem_flatMap.mp h
    rcases List.mem_cons.mp hc with rfl | hc
    · exact Or.inr (Or.inl rfl)
    · exact Or.inr (Or.inr ⟨w, hw, hc⟩)

theorem CleanLine.ne_nil {L : PyStr} (h : CleanLine L) : L ≠ [] := by
  obtain ⟨w0, ws, hw0, _, _, rfl⟩ := h
  exact glue_ne_nil hw0 ws

theorem CleanLine.head_no_ws {L : PyStr} (h : CleanLine L) :
    ∀ c, L.head? = some c → pyIsSpace c = false := by
  obtain ⟨w0, ws, hw0, hnw0, _, rfl⟩ := h
  intro c hc
  rw [head?_glue hw0] at hc
  exact hnw0 c (mem_of_head?_eq w0 c hc)

theorem CleanLine.last_no_ws {L : PyStr} (h : CleanLine L) :
    ∀ c, L.getLast? = some c → pyIsSpace c = false := by
  obtain ⟨w0, ws, hw0, hnw0, hws, rfl⟩ := h
  intro c hc
  obtain ⟨c', hc', hmem⟩ := getLast?_glue ws w0 hw0 (fun w hw => (hws w hw).1)
  rw [hc'] at hc
  obtain rfl : c' = c := by injection hc
  rcases hmem with h' | ⟨w, hw, h'⟩
  · exact hnw0 c' h'
  · exact (hws w hw).2 c' h'

theorem CleanLine.stripL_eq {L : PyStr} (h : CleanLine L) : stripL L = L :=
  stripL_eq_self h.head_no_ws h.last_no_ws

theorem trial_cur_empty {w : PyStr} (hw : NoWS w) :
    stripL (([] : PyStr) ++ ' ' :: w) = w := by
  rw [List.nil_append, stripL_cons_space]
  exact NoWS_stripL_eq hw

theorem trial_word_empty {cur : PyStr} (hC : CleanLine cur) :
    stripL (cur ++ ' ' :: ([] : PyStr)) = cur :=
  stripL_append_single_space hC.ne_nil hC.head_no_ws hC.last_no_ws

theorem trial_full {cur w : PyStr} (hC : CleanLine cur) (hw : w ≠ []) (hnw : NoWS w) :
    stripL (cur ++ ' ' :: w) = cur ++ ' ' :: w := by
  apply stripL_eq_self
  · intro c hc
    have hcur := hC.ne_nil
    cases cur with
    | nil => exact absurd rfl hcur
    | cons a t =>
      simp only [List.cons_append, List.head?_cons, Option.some.injEq] at hc
      exact hc ▸ hC.head_no_ws a rfl
  · intro c hc
    rw [List.getLast?_append_cons, ← List.singleton_append,
      List.getLast?_append_of_ne_nil [' '] hw] at hc
    exact hnw c (mem_of_getLast?_eq w c hc)

theorem widthUnits_append (cw : Char → ℕ) (l1 l2 : PyStr) :
    widthUnits cw (l1 ++ l2) = widthUnits cw l1 + widthUnits cw l2 := by
  simp [widthUnits]

theorem stringWidth_mono_units (cw : Char → ℕ) {l1 l2 : PyStr} {s : ℚ} (hs : 0 ≤ s)
    (h : widthUnits cw l1 ≤ widthUnits cw l2) :
    stringWidth cw l1 s ≤ stringWidth cw l2 s := by
  unfold stringWidth
  have h' : (widthUnits cw l1 : ℚ) ≤ (widthUnits cw l2 : ℚ) := by exact_mod_cast h
  have := mul_le_mul_of_nonneg_left h' hs
  linarith

theorem split_space_of_no_space : ∀ {w : PyStr}, (∀ c ∈ w, c ≠ ' ') →
    split_space w = [w] := by
  intro w
  induction w with
  | nil => intro _; rfl
  | cons c rest ih =>
    intro h
    rw [split_space, if_neg (h c (List.mem_cons_self c rest))]
    rw [ih (fun d hd => h d (List.mem_cons_of_mem c hd))]

theorem split_space_append_space : ∀ (w0 t : PyStr), (∀ c ∈ w0, c ≠ ' ') →
    split_space (w0 ++ ' ' :: t) = w0 :: split_space t := by
  intro w0
  induction w0 with
  | nil =>
    intro t _
    rw [List.nil_append, split_space, if_pos rfl]
  | cons c rest ih =>
    intro t h
    rw [List.cons_append, split_space, if_neg (h c (List.mem_cons_self c rest)),
      ih t (fun d hd => h d (List.mem_cons_of_mem c hd))]

theorem split_space_glue : ∀ (ws : List PyStr) (w0 : PyStr),
    (∀ c ∈ w0, c ≠ ' ') → (∀ w ∈ ws, ∀ c ∈ w, c ≠ ' ') →
    split_space (glue w0 ws) = w0 :: ws := by
  intro ws
  induction ws with
  | nil =>
    intro w0 h0 _
    rw [glue_nil, split_space_of_no_space h0]
  | cons w ws ih =>
    intro w0 h0 hws
    rw [glue_cons, split_space_append_space w0 (glue w ws) h0,
      ih w (hws w (List.mem_cons_self w ws))
        (fun u hu => hws u (List.mem_cons_of_mem w hu))]

theorem split_space_chars : ∀ (s : PyStr), ∀ w ∈ split_space s, ∀ c ∈ w,
    c ∈ s ∧ c ≠ ' ' := by
  intro s
  induction s with
  | nil =>
    intro w hw c hc
    simp only [split_space, List.mem_singleton] at hw
    subst hw
    cases hc
  | cons a rest ih =>
    intro w hw c hc
    rw [split_space] at hw
    by_cases ha : a = ' '
    · rw [if_pos ha] at hw
      rcases List.mem_cons.mp hw with rfl | hw
      · cases hc
      · obtain ⟨h1, h2⟩ := ih w hw c hc
        exact ⟨List.mem_cons_of_mem a h1, h2⟩
    · rw [if_neg ha] at hw
      rcases hsp : split_space rest with _ | ⟨l, ls⟩
      · rw [hsp] at hw
        rcases List.mem_cons.mp hw with rfl | hw
        · rcases List.mem_cons.mp hc with rfl | hc
          · exact ⟨List.mem_cons_self c rest, ha⟩
          · cases hc
        · cases hw
      · rw [hsp] at hw
        rcases List.mem_cons.mp hw with rfl | hw
        · rcases List.mem_cons.mp hc with rfl | hc
          · exact ⟨List.mem_cons_self c rest, ha⟩
          · obtain ⟨h1, h2⟩ := ih l (hsp ▸ List.mem_cons_self l ls) c hc
            exact ⟨List.mem_cons_of_mem a h1, h2⟩
        · obtain ⟨h1, h2⟩ := ih w (hsp ▸ List.mem_cons_of_mem l hw) c hc
          exact ⟨List.mem_cons_of_mem a h1, h2⟩

theorem wrap_words_aux_nil (cw : Char → ℕ) (size maxW : ℚ) (cur : PyStr) :
    wrap_words_aux cw size maxW [] cur = if cur = [] then [] else [cur] := rfl

theorem wrap_words_aux_cons (cw : Char → ℕ) (size maxW : ℚ) (w : PyStr)
    (ws : List PyStr) (cur : PyStr) :
    wrap_words_aux cw size maxW (w :: ws) cur =
      if stringWidth cw (stripL (cur ++ ' ' :: w)) size ≤ maxW then
        wrap_words_aux cw size maxW ws (stripL (cur ++ ' ' :: w))
      else (if cur = [] then [] else [cur]) ++ wrap_words_aux cw size maxW ws w := rfl

theorem single_word_goodline {cw : Char → ℕ} {size maxW : ℚ} {w : PyStr}
    (hw : w ≠ []) (hnw : NoWS w) : GoodLine cw size maxW w :=
  ⟨⟨w, [], hw, hnw, by simp, (glue_nil w).symm⟩, Or.inl hnw⟩

theorem wrap_words_aux_good (cw : Char → ℕ) (size maxW : ℚ) :
    ∀ (ws : List PyStr) (cur : PyStr),
      (∀ w ∈ ws, NoWS w) →
      (cur = [] ∨ GoodLine cw size maxW cur) →
      ∀ L ∈ wrap_words_aux cw size maxW ws cur, GoodLine cw size maxW L := by
  intro ws
  induction ws with
  | nil =>
    intro cur _ hcur L hL
    rw [wrap_words_aux_nil] at hL
    by_cases hc : cur = []
    · rw [if_pos hc] at hL
      cases hL
    · rw [if_neg hc] at hL
      obtain rfl := List.mem_singleton.mp hL
      rcases hcur with rfl | hg
      · exact absurd rfl hc
      · exact hg
  | cons w ws ih =>
    intro cur hws hcur L hL
    have hw : NoWS w := hws w (List.mem_cons_self w ws)
    have hws' : ∀ u ∈ ws, NoWS u := fun u hu => hws u (List.mem_cons_of_mem w hu)
    rw [wrap_words_aux_cons] at hL
    by_cases hfit : stringWidth cw (stripL (cur ++ ' ' :: w)) size ≤ maxW
    · rw [if_pos hfit] at hL
      have hinv : stripL (cur ++ ' ' :: w) = [] ∨
          GoodLine cw size maxW (stripL (cur ++ ' ' :: w)) := by
        rcases hcur with rfl | ⟨hclean, hdisj⟩
        · rw [trial_cur_empty hw]
          by_cases hwnil : w = []
          · exact Or.inl hwnil
          · exact Or.inr (single_word_goodline hwnil hw)
        · by_cases hwnil : w = []
          · subst hwnil
            rw [trial_word_empty hclean]
            exact Or.inr ⟨hclean, hdisj⟩
          · rw [trial_full hclean hwnil hw]
            obtain ⟨w0, ws0, hw0, hnw0, hws0, rfl⟩ := hclean
            refine Or.inr ⟨⟨w0, ws0 ++ [w], hw0, hnw0, ?_, (glue_append_one w0 ws0 w).symm⟩,
              Or.inr ?_⟩
            · intro u hu
              rcases List.mem_append.mp hu with h | h
              · exact hws0 u h
              · obtain rfl := List.mem_singleton.mp h
                exact ⟨hwnil, hw⟩
            · rw [← glue_append_one]
              rw [trial_full ⟨w0, ws0, hw0, hnw0, hws0, rfl⟩ hwnil hw] at hfit
              rwa [glue_append_one]
      exact ih _ hws' hinv L hL
    · rw [if_neg hfit] at hL
      rcases List.mem_append.mp hL with h | h
      · by_cases hc : cur = []
        · rw [if_pos hc] at h
          cases h
        · rw [if_neg hc] at h
          obtain rfl := List.mem_singleton.mp h
          rcases hcur with rfl | hg
          · exact absurd rfl hc
          · exact hg
      · have hwinv : w = [] ∨ GoodLine cw size maxW w := by
          by_cases hwnil : w = []
          · exact Or.inl hwnil
          · exact Or.inr (single_word_goodline hwnil hw)
        exact ih _ hws' hwinv L h

theorem clean_append_word {cur w : PyStr} (hC : CleanLine cur) (hw : w ≠ [])
    (hnw : NoWS w) : CleanLine (cur ++ ' ' :: w) := by
  obtain ⟨w0, ws0, hw0, hnw0, hws0, rfl⟩ := hC
  refine ⟨w0, ws0 ++ [w], hw0, hnw0, ?_, (glue_append_one w0 ws0 w).symm⟩
  intro u hu
  rcases List.mem_append.mp hu with h | h
  · exact hws0 u h
  · obtain rfl := List.mem_singleton.mp h
    exact ⟨hw, hnw⟩

theorem glue_cons_assoc (cur w : PyStr) (ws : List PyStr) :
    glue cur (w :: ws) = glue (cur ++ ' ' :: w) ws := by
  simp [glue]

theorem widthUnits_le_append (cw : Char → ℕ) (l1 l2 : PyStr) :
    widthUnits cw l1 ≤ widthUnits cw (l1 ++ l2) := by
  rw [widthUnits_append]
  exact Nat.le_add_right _ _

theorem wrap_words_aux_fits (cw : Char → ℕ) {size maxW : ℚ} (hs : 0 ≤ size) :
    ∀ (ws : List PyStr) (cur : PyStr),
      CleanLine cur →
      (∀ w ∈ ws, w ≠ [] ∧ NoWS w) →
      stringWidth cw (glue cur ws) size ≤ maxW →
      wrap_words_aux cw size maxW ws cur = [glue cur ws] := by
  intro ws
  induction ws with
  | nil =>
    intro cur hC _ _
    rw [wrap_words_aux_nil, if_neg hC.ne_nil, glue_nil]
  | cons w ws ih =>
    intro cur hC hws hwidth
    have hw := hws w (List.mem_cons_self w ws)
    rw [wrap_words_aux_cons, trial_full hC hw.1 hw.2]
    have hglue := glue_cons_assoc cur w ws
    have hfit : stringWidth cw (cur ++ ' ' :: w) size ≤ maxW := by
      refine le_trans (stringWidth_mono_units cw hs ?_) hwidth
      rw [hglue]
      exact widthUnits_le_append cw (cur ++ ' ' :: w) (ws.flatMap fun u => ' ' :: u)
    rw [if_pos hfit,
      ih (cur ++ ' ' :: w) (clean_append_word hC hw.1 hw.2)
        (fun u hu => hws u (List.mem_cons_of_mem w hu)) (by rwa [← hglue]),
      hglue]

theorem wrap_raw_good (cw : Char → ℕ) {size p maxW : ℚ} (hs0 : 0 ≤ size) (hsp : size ≤ p)
    {L : PyStr} (hL : GoodLine cw p maxW L) : wrap_raw cw size maxW L = [L] := by
  obtain ⟨⟨w0, ws, hw0, hnw0, hws, rfl⟩, hdisj⟩ := hL
  have hspace_false : ∀ {u : PyStr}, NoWS u → ∀ c ∈ u, c ≠ ' ' := by
    intro u hn c hc he
    have := hn c hc
    rw [he] at this
    exact absurd this (by decide)
  have hnosp0 : ∀ c ∈ w0, c ≠ ' ' := hspace_false hnw0
  have hnospws : ∀ w ∈ ws, ∀ c ∈ w, c ≠ ' ' := fun w hw => hspace_false (hws w hw).2
  unfold wrap_raw
  rw [split_space_glue ws w0 hnosp0 hnospws]
  cases ws with
  | nil =>
    rw [glue_nil, wrap_words_aux_cons, trial_cur_empty hnw0]
    by_cases hfit : stringWidth cw w0 size ≤ maxW
    · rw [if_pos hfit, wrap_words_aux_nil, if_neg hw0]
    · rw [if_neg hfit, if_pos rfl, wrap_words_aux_nil, if_neg hw0, List.nil_append]
  | cons w ws' =>
    have hspace : ¬ NoWS (glue w0 (w :: ws')) := by
      intro hn
      have hmem : ' ' ∈ glue w0 (w :: ws') := by
        rw [glue_cons]
        exact List.mem_append.mpr (Or.inr (List.mem_cons_self _ _))
      have := hn ' ' hmem
      exact absurd this (by decide)
    have hwidthp : stringWidth cw (glue w0 (w :: ws')) p ≤ maxW :=
      hdisj.resolve_left hspace
    have hwidth : stringWidth cw (glue w0 (w :: ws')) size ≤ maxW :=
      le_trans (stringWidth_mono_size cw _ hsp) hwidthp
    rw [wrap_words_aux_cons, trial_cur_empty hnw0]
    have hfit0 : stringWidth cw w0 size ≤ maxW := by
      refine le_trans (stringWidth_mono_units cw hs0 ?_) hwidth
      exact widthUnits_le_append cw w0 ((w :: ws').flatMap fun u => ' ' :: u)
    rw [if_pos hfit0]
    exact wrap_words_aux_fits cw hs0 (w :: ws') w0
      ⟨w0, [], hw0, hnw0, by simp, (glue_nil w0).symm⟩
      (fun u hu => hws u hu) hwidth

theorem splitlines_aux_chars :
    ∀ (s acc : List Char), ∀ L ∈ splitlines_aux s acc, ∀ c ∈ L,
      c ∈ acc ∨ (c ∈ s ∧ ¬ (c = '\n' ∨ c = '\r' ∨ c = '\x0b' ∨ c = '\x0c')) := by
  intro s acc
  induction s, acc using splitlines_aux.induct with
  | case1 =>
    intro L hL c _
    rw [splitlines_aux.eq_1, if_pos rfl] at hL
    cases hL
  | case2 acc hacc =>
    intro L hL c hc
    rw [splitlines_aux.eq_1, if_neg hacc] at hL
    obtain rfl := List.mem_singleton.mp hL
    exact Or.inl (List.mem_reverse.mp hc)
  | case3 rest acc ih =>
    intro L hL c hc
    rw [splitlines_aux.eq_2] at hL
    rcases List.mem_cons.mp hL with rfl | hL
    · exact Or.inl (List.mem_reverse.mp hc)
    · rcases ih L hL c hc with h | ⟨h1, h2⟩
      · cases h
      · exact Or.inr ⟨List.mem_cons_of_mem _ (List.mem_cons_of_mem _ h1), h2⟩
  | case4 c' rest acc hshape hsep ih =>
    intro L hL c hc
    rw [splitlines_aux.eq_3 acc c' rest hshape, if_pos hsep] at hL
    rcases List.mem_cons.mp hL with rfl | hL
    · exact Or.inl (List.mem_reverse.mp hc)
    · rcases ih L hL c hc with h | ⟨h1, h2⟩
      · cases h
      · exact Or.inr ⟨List.mem_cons_of_mem _ h1, h2⟩
  | case5 c' rest acc hshape hsep ih =>
    intro L hL c hc
    rw [splitlines_aux.eq_3 acc c' rest hshape, if_neg hsep] at hL
    rcases ih L hL c hc with h | ⟨h1, h2⟩
    · rcases List.mem_cons.mp h with rfl | h
      · exact Or.inr ⟨List.mem_cons_self c rest, hsep⟩
      · exact Or.inl h
    · exact Or.inr ⟨List.mem_cons_of_mem _ h1, h2⟩

theorem pySplitlines_chars (s : PyStr) : ∀ L ∈ pySplitlines s, ∀ c ∈ L,
    c ∈ s ∧ ¬ (c = '\n' ∨ c = '\r' ∨ c = '\x0b' ∨ c = '\x0c') := by
  intro L hL c hc
  rcases splitlines_aux_chars s [] L hL c hc with h | h
  · cases h
  · exact h

theorem mem_of_mem_dropWhile {p : Char → Bool} : ∀ (l : PyStr) (c : Char),
    c ∈ l.dropWhile p → c ∈ l := by
  intro l
  induction l with
  | nil => intro c h; cases h
  | cons a l ih =>
    intro c h
    rw [List.dropWhile_cons] at h
    by_cases ha : p a = true
    · simp only [ha, if_true] at h
      exact List.mem_cons_of_mem a (ih c h)
    · simp only [ha, if_false] at h
      exact h

theorem mem_of_mem_stripL {s : PyStr} {c : Char} (h : c ∈ stripL s) : c ∈ s := by
  unfold stripL at h
  rw [List.mem_reverse] at h
  have h1 := mem_of_mem_dropWhile _ _ h
  rw [List.mem_reverse] at h1
  exact mem_of_mem_dropWhile _ _ h1

theorem draw_multiline_fit_aux_succ (cw : Char → ℕ) (t : PyStr)
    (maxW availH minS leading : ℚ) (fuel : ℕ) (size : ℚ) (prev : List PyStr) :
    draw_multiline_fit_aux cw t maxW availH minS leading (fuel + 1) size prev =
      if size < minS then (size, prev)
      else if ((wrap_text cw size maxW t).length : ℚ) * (size * leading) ≤ availH then
        (size, wrap_text cw size maxW t)
      else draw_multiline_fit_aux cw t maxW availH minS leading fuel (size - 1/5)
        (wrap_text cw size maxW t) := rfl

theorem draw_multiline_fit_aux_stuck (cw : Char → ℕ) (t : PyStr)
    (maxW availH minS leading : ℚ) (fuel : ℕ) {size : ℚ} (prev : List PyStr)
    (h : size < minS) :
    draw_multiline_fit_aux cw t maxW availH minS leading fuel size prev =
      (size, prev) := by
  cases fuel with
  | zero => rfl
  | succ fuel => rw [draw_multiline_fit_aux_succ, if_pos h]

theorem draw_multiline_fit_aux_spec (cw : Char → ℕ) (t : PyStr)
    (maxW availH minS leading : ℚ) :
    ∀ (fuel : ℕ) (size : ℚ) (prev : List PyStr),
      minS ≤ size → size - (fuel : ℚ) / 5 < minS →
      minS - 1/5 ≤
          (draw_multiline_fit_aux cw t maxW availH minS leading fuel size prev).1 ∧
      ∃ p : ℚ,
        (draw_multiline_fit_aux cw t maxW availH minS leading fuel size prev).1 ≤ p ∧
        (draw_multiline_fit_aux cw t maxW availH minS leading fuel size prev).2 =
          wrap_text cw p maxW t := by
  intro fuel
  induction fuel with
  | zero =>
    intro size prev h1 h2
    exfalso
    push_cast at h2
    linarith
  | succ fuel ih =>
    intro size prev h1 h2
    rw [draw_multiline_fit_aux_succ, if_neg (not_lt.mpr h1)]
    by_cases hfit : ((wrap_text cw size maxW t).length : ℚ) * (size * leading) ≤ availH
    · rw [if_pos hfit]
      exact ⟨by linarith, size, le_refl size, rfl⟩
    · rw [if_neg hfit]
      by_cases h3 : size - 1/5 < minS
      · rw [draw_multiline_fit_aux_stuck cw t maxW availH minS leading fuel _ h3]
        exact ⟨by linarith, size, by linarith, rfl⟩
      · exact ih (size - 1/5) _ (not_lt.mp h3) (by push_cast at h2 ⊢; linarith)

theorem flatMap_id_of_singleton {α : Type} (l : List α) (f : α → List α)
    (h : ∀ x ∈ l, f x = [x]) : l.flatMap f = l := by
  induction l with
  | nil => rfl
  | cons a l ih =>
    rw [List.flatMap_cons, h a (List.mem_cons_self a l),
      ih (fun x hx => h x (List.mem_cons_of_mem a hx)), List.singleton_append]

/-- C8 (amended): for texts whose whitespace is only spaces and line
separators (no tabs or other strippable whitespace inside lines), and size
bounds with one shrink step `0.2 ≤ min_size ≤ max_size`, the multi-line fitter
is idempotent: greedily re-wrapping each line of the list it produced, at the
size it chose and against the same available width, reproduces exactly the
same line list. -/
theorem draw_multiline_fit_vec_rewrap
    (cw : Char → ℕ) (text : PyStr) (r : Rect) (maxS minS inset leading : ℚ)
    (hws : ∀ c ∈ text, pyIsSpace c = true →
      c = ' ' ∨ c = '\n' ∨ c = '\r' ∨ c = '\x0b' ∨ c = '\x0c')
    (hmin : 1/5 ≤ minS) (hmm : minS ≤ maxS) :
    ((draw_multiline_fit_vec cw text r maxS minS inset leading).2).flatMap
        (wrap_raw cw (draw_multiline_fit_vec cw text r maxS minS inset leading).1
          (r.x1 - r.x0 - 2 * inset)) =
      (draw_multiline_fit_vec cw text r maxS minS inset leading).2 := by
  have hdef : draw_multiline_fit_vec cw text r maxS minS inset leading =
      draw_multiline_fit_aux cw (stripL text) (r.x1 - r.x0 - 2 * inset)
        (r.y1 - r.y0 - 2 * inset) minS leading (fitFuel maxS minS) maxS [] := rfl
  obtain ⟨hge, p, hle, hwrap⟩ := draw_multiline_fit_aux_spec cw (stripL text)
    (r.x1 - r.x0 - 2 * inset) (r.y1 - r.y0 - 2 * inset) minS leading
    (fitFuel maxS minS) maxS [] hmm (fitFuel_lt maxS minS)
  rw [hdef, hwrap]
  apply flatMap_id_of_singleton
  intro L hL
  have hs0 : (0 : ℚ) ≤ (draw_multiline_fit_aux cw (stripL text)
      (r.x1 - r.x0 - 2 * inset) (r.y1 - r.y0 - 2 * inset) minS leading
      (fitFuel maxS minS) maxS []).1 := by linarith
  apply wrap_raw_good cw hs0 hle
  rw [wrap_text] at hL
  obtain ⟨raw, hraw, hmem⟩ := List.mem_flatMap.mp hL
  have hwords : ∀ w ∈ split_space raw, NoWS w := by
    intro w hw c hc
    obtain ⟨hcraw, hcsp⟩ := split_space_chars raw w hw c hc
    obtain ⟨hcs, hcsep⟩ := pySplitlines_chars (stripL text) raw hraw c hcraw
    by_cases hsp : pyIsSpace c = true
    · rcases hws c (mem_of_mem_stripL hcs) hsp with h' | h' | h' | h' | h'
      · exact absurd h' hcsp
      · exact absurd (Or.inl h') hcsep
      · exact absurd (Or.inr (Or.inl h')) hcsep
      · exact absurd (Or.inr (Or.inr (Or.inl h'))) hcsep
      · exact absurd (Or.inr (Or.inr (Or.inr h'))) hcsep
    · exact Bool.not_eq_true _ ▸ hsp
  exact wrap_words_aux_good cw p (r.x1 - r.x0 - 2 * inset) (split_space raw) []
    hwords (Or.inl rfl) L hmem

/-- C8 counterexample: the claim fails as universally stated.  For the text
`"aaaa \tb"` (a tab inside the line), widths `'\t' ↦ 0`, other glyphs `100`
units, rectangle `[0,0,9,100]`, `max_size = min_size = 10`, `inset = 2`,
`leading = 1.2`: the fitter chooses size 10 and produces the lines
`["aaaa", "\tb"]` (the overflow path stored the word `"\tb"` unstripped), but
re-wrapping that list at size 10 against the same width strips the tab and
yields `["aaaa", "b"]`. -/
theorem draw_multiline_fit_vec_rewrap_counterexample :
    ((draw_multiline_fit_vec (fun c => if c = '\t' then 0 else 100)
        ['a', 'a', 'a', 'a', ' ', '\t', 'b'] ⟨0, 0, 9, 100⟩ 10 10 2 (6/5)).2).flatMap
        (wrap_raw (fun c => if c = '\t' then 0 else 100)
          (draw_multiline_fit_vec (fun c => if c = '\t' then 0 else 100)
            ['a', 'a', 'a', 'a', ' ', '\t', 'b'] ⟨0, 0, 9, 100⟩ 10 10 2 (6/5)).1
          ((9 : ℚ) - 0 - 2 * 2)) ≠
      (draw_multiline_fit_vec (fun c => if c = '\t' then 0 else 100)
        ['a', 'a', 'a', 'a', ' ', '\t', 'b'] ⟨0, 0, 9, 100⟩ 10 10 2 (6/5)).2 := by
  have hu1 : widthUnits (fun c => if c = '\t' then 0 else 100) ['a', 'a', 'a', 'a'] = 400 := by
    decide
  have hu2 : widthUnits (fun c => if c = '\t' then 0 else 100)
      ['a', 'a', 'a', 'a', ' ', '\t', 'b'] = 600 := by decide
  have hu3 : widthUnits (fun c => if c = '\t' then 0 else 100) ['b'] = 100 := by decide
  have hw1 : stringWidth (fun c => if c = '\t' then 0 else 100) ['a', 'a', 'a', 'a'] 10 ≤
      (9 : ℚ) - 0 - 2 * 2 := by
    rw [stringWidth, hu1]
    norm_num
  have hw2 : ¬ stringWidth (fun c => if c = '\t' then 0 else 100)
      ['a', 'a', 'a', 'a', ' ', '\t', 'b'] 10 ≤ (9 : ℚ) - 0 - 2 * 2 := by
    rw [stringWidth, hu2]
    norm_num
  have hw3 : stringWidth (fun c => if c = '\t' then 0 else 100) ['b'] 10 ≤
      (9 : ℚ) - 0 - 2 * 2 := by
    rw [stringWidth, hu3]
    norm_num
  have hD : stripL (([] : PyStr) ++ ' ' :: ['a', 'a', 'a', 'a']) = ['a', 'a', 'a', 'a'] := by
    decide
  have hE : stripL (['a', 'a', 'a', 'a'] ++ ' ' :: ['\t', 'b']) =
      ['a', 'a', 'a', 'a', ' ', '\t', 'b'] := by decide
  have hF : stripL (([] : PyStr) ++ ' ' :: ['\t', 'b']) = ['b'] := by decide
  have hwrap_t : wrap_raw (fun c => if c = '\t' then 0 else 100) 10 ((9 : ℚ) - 0 - 2 * 2)
      ['a', 'a', 'a', 'a', ' ', '\t', 'b'] =
      [['a', 'a', 'a', 'a'], ['\t', 'b']] := by
    unfold wrap_raw
    rw [show split_space ['a', 'a', 'a', 'a', ' ', '\t', 'b'] =
        [['a', 'a', 'a', 'a'], ['\t', 'b']] from by decide,
      wrap_words_aux_cons, hD, if_pos hw1, wrap_words_aux_cons, hE, if_neg hw2,
      wrap_words_aux_nil]
    decide
  have hwraptext : wrap_text (fun c => if c = '\t' then 0 else 100) 10
      ((9 : ℚ) - 0 - 2 * 2) ['a', 'a', 'a', 'a', ' ', '\t', 'b'] =
      [['a', 'a', 'a', 'a'], ['\t', 'b']] := by
    unfold wrap_text
    rw [show pySplitlines ['a', 'a', 'a', 'a', ' ', '\t', 'b'] =
        [['a', 'a', 'a', 'a', ' ', '\t', 'b']] from by decide,
      List.flatMap_cons, hwrap_t]
    rfl
  have hfv : draw_multiline_fit_vec (fun c => if c = '\t' then 0 else 100)
      ['a', 'a', 'a', 'a', ' ', '\t', 'b'] ⟨0, 0, 9, 100⟩ 10 10 2 (6/5) =
      (10, [['a', 'a', 'a', 'a'], ['\t', 'b']]) := by
    show draw_multiline_fit_aux (fun c => if c = '\t' then 0 else 100)
        (stripL ['a', 'a', 'a', 'a', ' ', '\t', 'b']) ((9 : ℚ) - 0 - 2 * 2)
        ((100 : ℚ) - 0 - 2 * 2) 10 (6/5) (fitFuel 10 10) 10 [] =
      (10, [['a', 'a', 'a', 'a'], ['\t', 'b']])
    rw [show stripL ['a', 'a', 'a', 'a', ' ', '\t', 'b'] =
        ['a', 'a', 'a', 'a', ' ', '\t', 'b'] from by decide,
      show fitFuel 10 10 = 1 from by norm_num [fitFuel],
      draw_multiline_fit_aux_succ, if_neg (by norm_num : ¬ (10 : ℚ) < 10), hwraptext,
      if_pos (by norm_num : (([['a', 'a', 'a', 'a'], ['\t', 'b']].length : ℚ)) *
        ((10 : ℚ) * (6/5)) ≤ (100 : ℚ) - 0 - 2 * 2)]
  have hfst : (draw_multiline_fit_vec (fun c => if c = '\t' then 0 else 100)
      ['a', 'a', 'a', 'a', ' ', '\t', 'b'] ⟨0, 0, 9, 100⟩ 10 10 2 (6/5)).1 = 10 := by
    rw [hfv]
  have hsnd : (draw_multiline_fit_vec (fun c => if c = '\t' then 0 else 100)
      ['a', 'a', 'a', 'a', ' ', '\t', 'b'] ⟨0, 0, 9, 100⟩ 10 10 2 (6/5)).2 =
      [['a', 'a', 'a', 'a'], ['\t', 'b']] := by
    rw [hfv]
  rw [hfst, hsnd]
  have hrw1 : wrap_raw (fun c => if c = '\t' then 0 else 100) 10 ((9 : ℚ) - 0 - 2 * 2)
      ['a', 'a', 'a', 'a'] = [['a', 'a', 'a', 'a']] := by
    unfold wrap_raw
    rw [show split_space ['a', 'a', 'a', 'a'] = [['a', 'a', 'a', 'a']] from by decide,
      wrap_words_aux_cons, hD, if_pos hw1, wrap_words_aux_nil]
    decide
  have hrw2 : wrap_raw (fun c => if c = '\t' then 0 else 100) 10 ((9 : ℚ) - 0 - 2 * 2)
      ['\t', 'b'] = [['b']] := by
    unfold wrap_raw
    rw [show split_space ['\t', 'b'] = [['\t', 'b']] from by decide,
      wrap_words_aux_cons, hF, if_pos hw3, wrap_words_aux_nil]
    decide
  rw [List.flatMap_cons, hrw1, List.flatMap_cons, hrw2]
  decide

/-- Witness for C8 (amended) at a concrete space-separated text. -/
theorem draw_multiline_fit_vec_rewrap_witness :
    ((draw_multiline_fit_vec (fun _ => 500) "hello wide world".data ⟨0, 0, 40, 30⟩
        10 8 2 (6/5)).2).flatMap
        (wrap_raw (fun _ => 500)
          (draw_multiline_fit_vec (fun _ => 500) "hello wide world".data ⟨0, 0, 40, 30⟩
            10 8 2 (6/5)).1 ((40 : ℚ) - 0 - 2 * 2)) =
      (draw_multiline_fit_vec (fun _ => 500) "hello wide world".data ⟨0, 0, 40, 30⟩
        10 8 2 (6/5)).2 :=
  draw_multiline_fit_vec_rewrap (fun _ => 500) "hello wide world".data ⟨0, 0, 40, 30⟩
    10 8 2 (6/5) (by decide) (by norm_num) (by norm_num)

end Stratagem
